import Mathlib

/-!
Verification development for the `wavedata` software-defined-modem library.

The Rust sources are shallowly embedded: machine floats (`f32`) are modelled
as exact rationals (`Rat`), `u8`/`usize` as `Nat` (all quantities reasoned
about stay far below any overflow boundary), vectors and queues as `List`,
and fallible or panicking code as `Option`/`Except` (a `none` marks a Rust
panic such as an out-of-bounds index or a `slice::windows(0)` call).
Each definition mirrors one item of the source tree; the mapping is noted in
its doc comment.
-/

namespace Wavedata

/-- Transition events, `src/signals/am/mod.rs` `Transition` and (structurally
identical) `src/signals/dec/am.rs` `TransitionState`. -/
inductive Transition where
  | Rising : Transition
  | Falling : Transition
  | Hold : Nat → Transition
  | Noise : Nat → Transition
deriving DecidableEq, Repr

instance : Inhabited Transition := ⟨Transition.Rising⟩

/-- `TransitionState::transition` (src/signals/dec/am.rs lines 23-33): merge the
incoming event `ts` into `self`, the in-place update modelled functionally. -/
def Transition.transition (self ts : Transition) : Transition :=
  match self, ts with
  | .Rising, .Rising => .Noise 0
  | .Falling, .Falling => .Noise 0
  | .Noise pre, .Noise add => .Noise (pre + add)
  | .Hold pre, .Hold add => .Hold (pre + add)
  | _, t => t

/-- `State::push_transition` (src/signals/dec/am.rs lines 147-153): if the queue
has a last element, merge the new event into it in place; otherwise push. -/
def push_transition (transitions : List Transition) (ts : Transition) : List Transition :=
  match transitions.getLast? with
  | some last => transitions.dropLast ++ [last.transition ts]
  | none => transitions ++ [ts]

/-- Decidable check that a transition list has no two adjacent `Hold` items and
no two adjacent `Noise` items (the invariant claimed of `transitions`). -/
def noAdjacentMergeable : List Transition → Bool
  | .Hold _ :: .Hold _ :: _ => false
  | .Noise _ :: .Noise _ :: _ => false
  | _ :: rest => noAdjacentMergeable rest
  | [] => true

/-- Rust `slice::windows(k)`: the list of all contiguous length-`k` sub-slices
(empty when `k` exceeds the length; `k = 0` panics and is guarded at call
sites). -/
def windows (k : Nat) (l : List Rat) : List (List Rat) :=
  (List.range (l.length + 1 - k)).map (fun i => (l.drop i).take k)

namespace conv1d

/-- `utils.rs` `conv1d::Error`. -/
inductive Error where
  | IncorrectOutputSize : Error
  | SignalShorterThanKernel : Error
deriving DecidableEq, Repr

/-- `conv1d::valid_result_length` (src/utils.rs lines 62-64). -/
def valid_result_length (signal kernel : Nat) : Nat := signal - kernel + 1

/-- `conv1d::valid` (src/utils.rs lines 40-60).  The `result` argument models
the caller-supplied output buffer (only its length matters; every entry is
overwritten).  `none` models the `slice::windows(0)` panic hit when the kernel
is empty and both length checks pass. -/
def valid (signal kernel result : List Rat) : Option (Except Error (List Rat)) :=
  if signal.length < kernel.length then some (.error .SignalShorterThanKernel)
  else if result.length ≠ valid_result_length signal.length kernel.length then
    some (.error .IncorrectOutputSize)
  else if kernel.length = 0 then none
  else
    some (.ok ((windows kernel.length signal).map
      (fun w => (w.zip kernel).foldl (fun acc p => acc + p.1 * p.2) 0)))

end conv1d

/-- `utils::median_non_averaged` (src/utils.rs lines 137-149): sort a copy,
return the element at index `len / 2`; error on empty input.  Any comparison
sort yields the same sorted list over a linear order, so `insertionSort`
faithfully models the Rust `sort_by`. -/
def median_non_averaged (input : List Rat) : Option Rat :=
  let ordered := input.insertionSort (· ≤ ·)
  if ordered.isEmpty then none else some (ordered.getD (ordered.length / 2) 0)

/-- `utils::nms` (src/utils.rs lines 151-164): sum `+1` for each adjacent pair
with `w0 ≤ w1` and `-1` otherwise, accept iff the sum is zero. -/
def nms (input : List Rat) : Bool :=
  ((windows 2 input).map
    (fun w => if w.getD 0 0 ≤ w.getD 1 0 then (1 : Int) else -1)).sum == 0

/-- Machine epsilon of `f32`, the exact value of `f32::EPSILON`. -/
def EPSILON : Rat := 1 / 2 ^ 23

/-- `Amplitude::relative_to` (src/units.rs lines 150-153): divide, coercing a
zero denominator to epsilon. -/
def Amplitude.relative_to (a rhs : Rat) : Rat :=
  let denominator := if rhs = 0 then EPSILON else rhs
  a / denominator

/-- Greatest element of a list, `iter().max_by(..).unwrap_or(zero)`:
zero only for an empty list. -/
def maxOf : List Rat → Rat
  | [] => 0
  | x :: xs => xs.foldl max x

/-- Mean of the absolute values of a list (the quantity the specification calls
`mean(|conv|)`). -/
def meanAbs (l : List Rat) : Rat := (l.map (fun x => |x|)).sum / (l.length : Rat)

/-- `TransitionSearch` (src/signals/dec/am.rs lines 184-189). -/
structure TransitionSearch where
  convolved : List Rat
  median : Rat
  max : Rat
  signal_beg_offset : Nat
deriving DecidableEq, Repr

/-- `TransitionSearch::process` (src/signals/dec/am.rs lines 192-211).  `none`
models the panics: `valid_result_length` underflow / `unwrap()` of the
convolution error when the signal is shorter than the kernel, and the
`windows(0)` panic when the kernel is empty. -/
def TransitionSearch.process (signals kernel : List Rat) : Option TransitionSearch :=
  if signals.length < kernel.length then none
  else
    match conv1d.valid signals kernel
        (List.replicate (conv1d.valid_result_length signals.length kernel.length) 0) with
    | some (.ok convolved) =>
        some ⟨convolved, (median_non_averaged convolved).getD 0, maxOf convolved,
          signals.length - convolved.length⟩
    | _ => none

/-- The denominator used by `TransitionSearch::snr` (src/signals/dec/am.rs
lines 213-220): the stored median, coerced to `f32::EPSILON` when not
positive. -/
def TransitionSearch.snr_denominator (ts : TransitionSearch) : Rat :=
  if 0 < ts.median then ts.median else EPSILON

/-- `TransitionSearch::snr` (src/signals/dec/am.rs lines 213-220). -/
def TransitionSearch.snr (ts : TransitionSearch) : Rat :=
  Amplitude.relative_to ts.max ts.snr_denominator

/-- `TransitionDecoder::dequeue_realtime_samples` (src/signals/dec/am.rs lines
354-361): move `(source.len() / w) * w` samples from the front of the realtime
backlog to the back of the backlog.  Returns (new source, new target). -/
def dequeue_realtime_samples (samples_needed : Nat) (source target : List Rat) :
    List Rat × List Rat :=
  let samples_to_take := source.length / samples_needed * samples_needed
  (source.drop samples_to_take, target ++ source.take samples_to_take)

/-- The drain loop of `TransitionDecoder::sample_backlog_to_carrier_amplitudes`
(src/signals/dec/am.rs lines 335-352): while strictly more than one window is
buffered, remove a window-sized chunk from the front.  Returns the remaining
backlog and the drained chunks in order (each chunk is then fed to the FFT,
which is irrelevant to the queue discipline and not modelled).  The source
loops forever when `samples_needed = 0`; that case is mapped to the identity
and excluded by hypothesis in the theorems. -/
def sample_backlog_drain (samples_needed : Nat) (samples : List Rat) :
    List Rat × List (List Rat) :=
  if h : samples_needed = 0 ∨ samples.length ≤ samples_needed then (samples, [])
  else
    let rec_result := sample_backlog_drain samples_needed (samples.drop samples_needed)
    (rec_result.1, samples.take samples_needed :: rec_result.2)
termination_by samples.length
decreasing_by
  simp only [not_or, not_le] at h
  have h1 : samples_needed ≠ 0 := h.1
  have h2 : samples_needed < samples.length := h.2
  simp only [List.length_drop]
  omega

/-- Rust `Vec::resize(n, pad)` on a list. -/
def listResize (l : List Nat) (n : Nat) (pad : Nat) : List Nat :=
  if l.length ≤ n then l ++ List.replicate (n - l.length) pad else l.take n

/-- `utils::BitVec` (src/utils.rs lines 201-249): a bit-packed append-only
buffer; `s` holds the bytes (each `< 256`), `bl` the number of bits. -/
structure BitVec where
  s : List Nat
  bl : Nat
deriving DecidableEq, Repr

/-- `BitVec::new`. -/
def BitVec.new : BitVec := ⟨[], 0⟩

/-- `BitVec::set_bit` (src/utils.rs lines 236-244): clear bit `7 - n` of the
byte `b` and set it to `value` (`!bit` on `u8` is `255 ^^^ bit`). -/
def BitVec.set_bit (b n : Nat) (value : Bool) : Nat :=
  let bit := 1 <<< (7 - n)
  let result := b &&& (255 ^^^ bit)
  if value then result ||| bit else result

/-- `BitVec::push` (src/utils.rs lines 214-219): grow the byte vector to
`bl / 8 + 1` bytes, bump the bit length, and set bit `(bl - 1) % 8` of the
last byte (the `unwrap` is safe: the resize guarantees a last byte, modelled
with `getLastD`). -/
def BitVec.push (v : BitVec) (value : Bool) : BitVec :=
  let s := listResize v.s (v.bl / 8 + 1) 0
  let bl := v.bl + 1
  ⟨s.dropLast ++ [BitVec.set_bit (s.getLastD 0) ((bl - 1) % 8) value], bl⟩

/-- `BitVec::len`. -/
def BitVec.len (v : BitVec) : Nat := v.bl

/-- `BitVec::read_bit` (src/utils.rs lines 225-227). -/
def BitVec.read_bit (b n : Nat) : Bool := (b &&& (1 <<< (7 - n))) != 0

/-- `BitVec::truncate_last_incomplete_byte` (src/utils.rs lines 229-234). -/
def BitVec.truncate_last_incomplete_byte (v : BitVec) : BitVec :=
  if v.bl % 8 > 0 then ⟨v.s.take (v.s.length - 1), v.bl / 8 * 8⟩ else v

/-- `BitVec::byte_vec`. -/
def BitVec.byte_vec (v : BitVec) : List Nat := v.s

/-- Push a list of bits in order. -/
def BitVec.pushList (v : BitVec) (bits : List Bool) : BitVec :=
  bits.foldl BitVec.push v

/-- `src/signals/proc.rs` `Error`. -/
inductive ProcError where
  | FrequencyOutOfBounds : ProcError
deriving DecidableEq, Repr

/-- `SamplingRate::max_frequency` (src/sampling.rs lines 77-79): `(rate / 2) as
f32`, integer division. -/
def SamplingRate.max_frequency (rate : Nat) : Rat := ((rate / 2 : Nat) : Rat)

/-- `proc::dft::step` (src/signals/proc.rs lines 19-21):
`max_frequency.recip_scale(frequency_steps)`.  Rational division by zero gives
`0`, which leads the band centre check to the same `FrequencyOutOfBounds`
outcome as the `f32` infinity does in Rust. -/
def dftStep (frequency_steps : Nat) (max_frequency : Rat) : Rat :=
  max_frequency / (frequency_steps : Rat)

/-- `Frequency::bandwidth_steps` (src/units.rs lines 102-105):
`round((self / 2) / step) as usize`.  `Int.toNat` models the saturating
float-to-`usize` cast. -/
def Frequency.bandwidth_steps (f step_band : Rat) : Nat :=
  (round (f / 2 / step_band)).toNat

/-- `DFT` (src/signals/proc.rs lines 24-27): the complex spectrum is kept
abstract as a list of rational placeholders (only slicing is reasoned about)
plus the sampling rate in Hz. -/
structure DFT where
  dft : List Rat
  rate : Nat
deriving DecidableEq, Repr

/-- `DFT::frequency_steps`. -/
def DFT.frequency_steps (d : DFT) : Nat := d.dft.length / 2

/-- `DFT::step`. -/
def DFT.step (d : DFT) : Rat := dftStep d.frequency_steps (SamplingRate.max_frequency d.rate)

/-- `DFT::band_step_bounds` (src/signals/proc.rs lines 64-76). -/
def DFT.band_step_bounds (d : DFT) (freq : Rat) (steps : Nat) :
    Except ProcError (Nat × Nat) :=
  let step := d.step
  let item := (round (freq / step)).toNat
  if item < d.frequency_steps then
    let radius := steps
    let lower_bound := if radius ≤ item then item - radius else 0
    let upper_bound := min (item + radius + 1) d.frequency_steps
    .ok (lower_bound, upper_bound)
  else .error .FrequencyOutOfBounds

/-- `DFT::band_steps` (src/signals/proc.rs lines 78-85): the slice
`dft[lower..upper]`. -/
def DFT.band_steps (d : DFT) (freq : Rat) (steps : Nat) : Except ProcError (List Rat) :=
  (d.band_step_bounds freq steps).map (fun b => (d.dft.drop b.1).take (b.2 - b.1))

/-- `DFT::band` (src/signals/proc.rs lines 54-62). -/
def DFT.band (d : DFT) (freq bandwidth : Rat) : Except ProcError (List Rat) :=
  d.band_steps freq (Frequency.bandwidth_steps bandwidth d.step)

/-- NRZI symbol values, `src/encodings/mod.rs` `nrzi::Value`. -/
inductive Value where
  | StartOfFrame : Nat → Value
  | Bit : Bool → Value
  | EndOfFrame : Nat → Value
  | StuffBit : Value
  | Complete : Value
deriving DecidableEq, Repr

/-- Encoder state-machine phases, `src/encodings/enc.rs` `StateMachine`. -/
inductive EncSM where
  | BeginOfFrame : EncSM
  | Payload : EncSM
  | EndOfFrame : EncSM
  | Complete : EncSM
deriving DecidableEq, Repr

/-- `enc::nrzi::Parameters` (src/encodings/enc.rs lines 12-17). -/
structure EncParameters where
  payload : List Nat
  stuff_bit_after : Nat
  preamble : Nat
deriving DecidableEq, Repr

/-- `enc::nrzi::State` (src/encodings/enc.rs lines 29-35). -/
structure EncState where
  payload_offset : Nat
  current_bit_offset : Nat
  contigous_zeros : Nat
  preamble : Nat
  sm : EncSM
deriving DecidableEq, Repr

/-- `State::init` (src/encodings/enc.rs lines 37-47). -/
def EncState.init : EncState := ⟨0, 0, 0, 0, .BeginOfFrame⟩

/-- `NRZI::current_bit` (src/encodings/enc.rs lines 129-133): bit `7 -
current_bit_offset` of the current payload byte; `none` models the
out-of-bounds panic of `payload[payload_offset]`. -/
def current_bit? (c : EncParameters) (s : EncState) : Option Bool :=
  (c.payload[s.payload_offset]?).map
    (fun byte => (byte &&& (1 <<< (7 - s.current_bit_offset))) != 0)

/-- `NRZI::stuffing` (src/encodings/enc.rs lines 135-137). -/
def stuffing (c : EncParameters) (s : EncState) : Bool :=
  decide (c.stuff_bit_after ≤ s.contigous_zeros)

/-- `NRZI::is_end_of_frame` (src/encodings/enc.rs lines 139-141). -/
def is_end_of_frame (c : EncParameters) (s : EncState) : Bool :=
  decide (c.payload.length ≤ s.payload_offset)

/-- `NRZI::current` (src/encodings/enc.rs lines 62-75). -/
def current? (c : EncParameters) (s : EncState) : Option Value :=
  match s.sm with
  | .BeginOfFrame => some (.StartOfFrame s.preamble)
  | .Payload =>
      if stuffing c s then some .StuffBit else (current_bit? c s).map .Bit
  | .EndOfFrame => some (.EndOfFrame s.contigous_zeros)
  | .Complete => some .Complete

/-- `NRZI::advance_bit` (src/encodings/enc.rs lines 120-127). -/
def advance_bit (s : EncState) : EncState :=
  if s.current_bit_offset < 7 then {s with current_bit_offset := s.current_bit_offset + 1}
  else {s with current_bit_offset := 0, payload_offset := s.payload_offset + 1}

/-- `NRZI::advance` (src/encodings/enc.rs lines 77-118).  In the `Payload` arm
the Rust code reads `current_bit` unconditionally before branching, so the
whole step is `none` (panic) when the payload cursor is out of bounds.

The source's `contigous_zeros` and `stuff_bit_after` are `u8`; they are
modelled as unbounded `Nat`, which is exact only while every intermediate
value stays below 256.  In the `Payload` arm the counter never exceeds
`stuff_bit_after`, but the `EndOfFrame` arm drives it to `stuff_bit_after + 2`
and computes `stuff_bit_after + 1`: for `stuff_bit_after ≥ 254` the program
overflows there (debug panic; wrapping in release, giving a 1-item or
never-ending trailer), so trailer-shaped statements are made under
`stuff_bit_after ≤ 253`, where the model and the program agree. -/
def advance? (c : EncParameters) (s : EncState) : Option EncState :=
  match s.sm with
  | .BeginOfFrame =>
      let p := s.preamble + 1
      some {s with preamble := p, sm := if p < c.preamble then .BeginOfFrame else .Payload}
  | .Payload =>
      (current_bit? c s).map (fun last_bit =>
        let s1 :=
          if stuffing c s then {s with contigous_zeros := 0}
          else advance_bit {s with contigous_zeros := (if last_bit then 0 else s.contigous_zeros + 1)}
        if is_end_of_frame c s1 then {s1 with contigous_zeros := 0, sm := .EndOfFrame}
        else {s1 with sm := .Payload})
  | .EndOfFrame =>
      let z := s.contigous_zeros + 1
      some {s with
              contigous_zeros := z,
              sm := (if c.stuff_bit_after + 1 < z then .Complete else .EndOfFrame)}
  | .Complete => some {s with sm := .Complete}

/-- `Iterator::next` for `NRZI` (src/encodings/enc.rs lines 144-155): read the
current value, advance, and stop (inner `none`) when the value was `Complete`.
The outer `none` is a panic in either half. -/
def next? (c : EncParameters) (s : EncState) : Option (Option Value × EncState) := do
  let v ← current? c s
  let s' ← advance? c s
  pure (if v = .Complete then none else some v, s')

/-- Collect the iterator's items (fuel-bounded; the characterization lemmas
prove the chosen fuel is always sufficient).  Also returns the state at which
the iterator stopped. -/
def collect (c : EncParameters) : Nat → EncState → Option (List Value × EncState)
  | 0, _ => none
  | fuel + 1, s =>
    match next? c s with
    | none => none
    | some (none, s') => some ([], s')
    | some (some v, s') => (collect c fuel s').map (fun r => (v :: r.1, r.2))

/-- Fuel that dominates the number of iterator steps. -/
def fuelFor (c : EncParameters) : Nat :=
  max c.preamble 1 + 16 * c.payload.length + c.stuff_bit_after + 8

/-- The full run of the NRZI encoder iterator on `Parameters::new(payload,
stuff_bit_after, preamble)`: the collected items plus the final state.  `none`
models a panic (e.g. the empty payload). -/
def NRZI_run (payload : List Nat) (sba pre : Nat) : Option (List Value × EncState) :=
  collect ⟨payload, sba, pre⟩ (fuelFor ⟨payload, sba, pre⟩) EncState.init

/-- The item sequence yielded by the NRZI encoder iterator. -/
def nrziIter (payload : List Nat) (sba pre : Nat) : Option (List Value) :=
  (NRZI_run payload sba pre).map Prod.fst

/-- The bits of one byte, most significant first. -/
def byteBits (b : Nat) : List Bool := (List.range 8).map (fun i => b.testBit (7 - i))

/-- All payload bits, bytes in order, MSB-first within each byte. -/
def payloadBits (P : List Nat) : List Bool := (P.map byteBits).flatten

/-- The payload section of the encoder output as a structural function of the
remaining bits and the contiguous-zeros counter (valid for `1 ≤ sba`; proved
equal to the state machine's emissions by `collect_payload`). -/
def stuffedAux (sba : Nat) : List Bool → Nat → List Value
  | [], _ => []
  | b :: rest, z =>
    if sba ≤ z then .StuffBit :: .Bit b :: stuffedAux sba rest (if b then 0 else 1)
    else .Bit b :: stuffedAux sba rest (if b then 0 else z + 1)

/-- The preamble section of the encoder output: `StartOfFrame(i)` for `i` below
`preamble`, but at least one item (the first `current()` precedes the check). -/
def sofList (pre : Nat) : List Value := (List.range (max pre 1)).map .StartOfFrame

/-- The trailer section of the encoder output. -/
def eofList (sba : Nat) : List Value := (List.range (sba + 2)).map .EndOfFrame

/-- Decidable bound on runs of consecutive `Bit(false)` items: `c` zeros are
already pending; every `Bit(false)` must keep the run at most `sba`; any other
item (including `StuffBit`) ends the run. -/
def zeroRunsBounded (sba : Nat) : List Value → Nat → Bool
  | [], _ => true
  | .Bit false :: rest, c => decide (c + 1 ≤ sba) && zeroRunsBounded sba rest (c + 1)
  | _ :: rest, _ => zeroRunsBounded sba rest 0

/-- `dec::nrzi::Error` (src/encodings/dec.rs lines 4-10). -/
inductive DecError where
  | IncorrectTransition : DecError
  | IncompleteFrame : DecError
  | IncorrectStartOfFrame : DecError
  | IncorrectBitStuffingInTransitions : DecError
deriving DecidableEq, Repr

/-- `dec::nrzi::NRZIState` (src/encodings/dec.rs lines 12-17). -/
inductive NRZIState where
  | Begin : Nat → NRZIState
  | Bit : Nat → NRZIState
  | Done : Nat → NRZIState
deriving DecidableEq, Repr

/-- The `for _ in 0..hold_length { result.push(false) }` loop of `parse`. -/
def pushFalses (bv : BitVec) : Nat → BitVec
  | 0 => bv
  | n + 1 => pushFalses (bv.push false) n

/-- The transition-consuming loop of `dec::nrzi::NRZI::parse`
(src/encodings/dec.rs lines 36-83), one arm per Rust match arm, guards
included in source order; `idx` is the enumeration index, `sof` the preamble
counter, `result` the bit accumulator.  `Done` breaks out of the loop. -/
def parseLoop (bit_stuffing preamble : Nat) :
    List Transition → Nat → NRZIState → Nat → BitVec →
    Except DecError (NRZIState × BitVec)
  | [], _, sm, _, result => .ok (sm, result)
  | ts :: rest, idx, sm, sof, result =>
    match sm, ts with
    | .Begin v, .Noise _ =>
        if v = 0 then parseLoop bit_stuffing preamble rest (idx + 1) (.Begin 0) sof result
        else .error .IncorrectStartOfFrame
    | .Begin v, .Rising =>
        if v % 2 = 0 then
          parseLoop bit_stuffing preamble rest (idx + 1)
            (if sof + 1 < preamble then .Begin (sof + 1) else .Bit 0) (sof + 1) result
        else .error .IncorrectStartOfFrame
    | .Begin v, .Falling =>
        if v % 2 = 1 then
          parseLoop bit_stuffing preamble rest (idx + 1)
            (if sof + 1 < preamble then .Begin (sof + 1) else .Bit 0) (sof + 1) result
        else .error .IncorrectStartOfFrame
    | .Begin _, .Hold _ => .error .IncorrectStartOfFrame
    | .Bit hold_count, .Hold hold_length =>
        if hold_length + hold_count ≤ bit_stuffing then
          parseLoop bit_stuffing preamble rest (idx + 1) (.Bit (hold_count + hold_length)) sof
            (pushFalses result hold_length)
        else .error .IncorrectBitStuffingInTransitions
    | .Bit hold_count, .Noise _ =>
        if bit_stuffing ≤ hold_count then
          parseLoop bit_stuffing preamble rest (idx + 1) (.Done (idx + 1)) sof
            result.truncate_last_incomplete_byte
        else .error .IncompleteFrame
    | .Bit hold_count, .Rising =>
        parseLoop bit_stuffing preamble rest (idx + 1) (.Bit 0) sof
          (if hold_count < bit_stuffing then result.push true else result)
    | .Bit hold_count, .Falling =>
        parseLoop bit_stuffing preamble rest (idx + 1) (.Bit 0) sof
          (if hold_count < bit_stuffing then result.push true else result)
    | .Done _, _ => .ok (sm, result)

/-- `dec::nrzi::NRZI::parse` (src/encodings/dec.rs lines 27-95) followed by
`payload()`: the recovered byte vector.  The outer `none` models the
`panic!("Internal error")` when the loop ends in a non-`Done` state. -/
def parse (frame : List Transition) (bit_stuffing preamble : Nat) :
    Option (Except DecError (List Nat)) :=
  match parseLoop bit_stuffing preamble frame 0 (.Begin 0) 0 BitVec.new with
  | .error e => some (.error e)
  | .ok (.Done _, result) => some (.ok result.byte_vec)
  | .ok (_, _) => none

/-- `signals::BinaryLevel` (src/signals/mod.rs lines 18-31). -/
inductive BinaryLevel where
  | Low : BinaryLevel
  | High : BinaryLevel
deriving DecidableEq, Repr

/-- `BinaryLevel::neg`. -/
def BinaryLevel.neg : BinaryLevel → BinaryLevel
  | .Low => .High
  | .High => .Low

/-- Modelled from the spec: `BinaryLevel::transition` is called by
`nrzi_to_transition_states` but missing from the `src/` snapshot.  A flip
leaving `Low` is a rising edge and one leaving `High` a falling edge, the only
reading consistent with the decoder test vectors (src/encodings/dec.rs tests)
and the spec's Rising/Falling alternation. -/
def BinaryLevel.transition : BinaryLevel → Transition
  | .Low => .Rising
  | .High => .Falling

/-- The symbol-consuming loop of `utils::nrzi_to_transition_states`
(src/signals/enc/am.rs lines 136-171), arms in source order.  The source
matches the index-free `Value` family; the `StartOfFrame(_)` pattern is the
minimal port to the indexed `Value` of `src/encodings/mod.rs`.  `Complete`
pushes `Noise(1)` and breaks; unmatched pairs are `Err(())`. -/
def convGo : BinaryLevel → List Value → Except Unit (List Transition)
  | _, [] => .ok []
  | level, v :: rest =>
    match level, v with
    | .Low, .StartOfFrame _ => (convGo .High rest).map (.Rising :: ·)
    | lv, .StuffBit => (convGo lv.neg rest).map (lv.transition :: ·)
    | lv, .Bit true => (convGo lv.neg rest).map (lv.transition :: ·)
    | lv, .Bit false => (convGo lv rest).map (.Hold 1 :: ·)
    | .Low, .EndOfFrame 0 => (convGo .High rest).map (.Rising :: ·)
    | .High, .EndOfFrame e => if e ≤ 1 then (convGo .Low rest).map (.Falling :: ·) else .error ()
    | .Low, .EndOfFrame _ => (convGo .Low rest).map (.Hold 1 :: ·)
    | .Low, .Complete => .ok [.Noise 1]
    | .High, .StartOfFrame _ => .error ()
    | .High, .Complete => .error ()

/-- The merge fold of `nrzi_to_transition_states` (src/signals/enc/am.rs lines
173-195): coalesce an adjacent Hold/Hold or Noise/Noise pair into the last
element, push otherwise. -/
def mergeStep (acc : List Transition) (item : Transition) : List Transition :=
  match acc.getLast? with
  | none => acc ++ [item]
  | some last =>
    match last, item with
    | .Hold prev, .Hold curr => acc.dropLast ++ [.Hold (prev + curr)]
    | .Noise prev, .Noise curr => acc.dropLast ++ [.Noise (prev + curr)]
    | _, _ => acc ++ [item]

/-- The complete merge pass. -/
def mergeTransitions (l : List Transition) : List Transition := l.foldl mergeStep []

/-- `utils::nrzi_to_transition_states` (src/signals/enc/am.rs lines 136-196). -/
def nrzi_to_transition_states (input : List Value) : Except Unit (List Transition) :=
  (convGo .Low input).map mergeTransitions

/-- Head-recursive form of the merge pass (proved equal to
`mergeTransitions`). -/
def mergeGo : Transition → List Transition → List Transition
  | acc, [] => [acc]
  | .Hold p, .Hold c :: rest => mergeGo (.Hold (p + c)) rest
  | .Noise p, .Noise c :: rest => mergeGo (.Noise (p + c)) rest
  | acc, y :: rest => acc :: mergeGo y rest

/-- Head-recursive merge of a whole list. -/
def mergeRec : List Transition → List Transition
  | [] => []
  | x :: rest => mergeGo x rest

/-- Outcome of the encode → transitions → parse pipeline. -/
inductive PipeResult where
  | panic : PipeResult
  | convErr : PipeResult
  | parseErr : DecError → PipeResult
  | ok : List Nat → PipeResult
deriving DecidableEq, Repr

/-- The round-trip experiment: run the NRZI encoder, convert the emitted
symbol stream — taken inclusively of the final `Complete` state value, the
reading without which every parse ends in the `"Internal error"` panic — to
transitions, and parse them back with the same `stuff_bit_after` and
`preamble`. -/
def roundTrip (P : List Nat) (sba pre : Nat) : PipeResult :=
  match nrziIter P sba pre with
  | none => .panic
  | some values =>
    match nrzi_to_transition_states (values ++ [.Complete]) with
    | .error _ => .convErr
    | .ok transitions =>
      match parse transitions sba pre with
      | none => .panic
      | some (.error e) => .parseErr e
      | some (.ok bytes) => .ok bytes

/-- Raw converter output on a payload-section bit list together with the final
level: the explicit form of `convGo` on `stuffedAux` (proved equal by
`convGo_stuffedAux`). -/
def convPayload (sba : Nat) : List Bool → Nat → BinaryLevel → List Transition × BinaryLevel
  | [], _, lv => ([], lv)
  | b :: rest, z, lv =>
    if sba ≤ z then
      if b then
        let r := convPayload sba rest 0 lv
        (lv.transition :: lv.neg.transition :: r.1, r.2)
      else
        let r := convPayload sba rest 1 lv.neg
        (lv.transition :: .Hold 1 :: r.1, r.2)
    else
      if b then
        let r := convPayload sba rest 0 lv.neg
        (lv.transition :: r.1, r.2)
      else
        let r := convPayload sba rest (z + 1) lv
        (.Hold 1 :: r.1, r.2)

/-- The contiguous-zeros counter after a payload-section bit list. -/
def zAfter (sba : Nat) : List Bool → Nat → Nat
  | [], z => z
  | b :: rest, z =>
    if sba ≤ z then zAfter sba rest (if b then 0 else 1)
    else zAfter sba rest (if b then 0 else z + 1)

/-- The band centre index of the DFT band operations: `round(freq / step) as
usize` (`Int.toNat` models the saturating cast). -/
def bandCenter (d : DFT) (freq : Rat) : Nat := (round (freq / d.step)).toNat

/-- The valid convolution written pointwise: entry `i` is
`Σ_j signal[i + j] * kernel[j]`. -/
def validConv (signal kernel : List Rat) : List Rat :=
  (List.range (conv1d.valid_result_length signal.length kernel.length)).map
    (fun i => ((List.range kernel.length).map
      (fun j => signal.getD (i + j) 0 * kernel.getD j 0)).sum)

/-- The value selected by `median_non_averaged` on a non-empty list. -/
def medianNA (l : List Rat) : Rat :=
  (l.insertionSort (· ≤ ·)).getD (l.length / 2) 0

/-- Result equivalence for `parseLoop` outcomes: equal errors, or equal bit
accumulators with states equal up to the recorded `Done` index (the index is
discarded by `parse`). -/
def loopEquiv : Except DecError (NRZIState × BitVec) → Except DecError (NRZIState × BitVec) → Prop
  | .error e1, .error e2 => e1 = e2
  | .ok (sm1, bv1), .ok (sm2, bv2) =>
      bv1 = bv2 ∧ (sm1 = sm2 ∨ ∃ i j, sm1 = .Done i ∧ sm2 = .Done j)
  | _, _ => False

/-! ## General lemmas -/

theorem push_transition_length (l : List Transition) (ts : Transition) :
    (push_transition l ts).length = max l.length 1 := by
  cases hl : l.getLast? with
  | none =>
      have : l = [] := List.getLast?_eq_none_iff.mp hl
      subst this
      simp [push_transition]
  | some last =>
      have hne : l ≠ [] := by
        intro h
        subst h
        simp at hl
      have hpos : 0 < l.length := List.length_pos.mpr hne
      simp [push_transition, hl, List.length_dropLast]
      omega

theorem sample_backlog_drain_dvd (w : Nat) (hw : 0 < w) :
    ∀ (n : Nat) (samples : List Rat), samples.length ≤ n → w ∣ samples.length →
      w ∣ (sample_backlog_drain w samples).1.length := by
  intro n
  induction n with
  | zero =>
      intro samples hlen hd
      rw [sample_backlog_drain]
      have : samples.length ≤ w := by omega
      simp only [this, or_true, dite_true]
      exact hd
  | succ n ih =>
      intro samples hlen hd
      rw [sample_backlog_drain]
      split
      · exact hd
      · rename_i hcond
        simp only [not_or, not_le] at hcond
        have hlt : w < samples.length := hcond.2
        have h1 : (samples.drop w).length ≤ n := by
          simp only [List.length_drop]
          omega
        have h2 : w ∣ (samples.drop w).length := by
          simp only [List.length_drop]
          exact Nat.dvd_sub' hd dvd_rfl
        exact ih (samples.drop w) h1 h2

/-! ## Claim theorems -/

/-- C9: `nms` on a window of three samples `[a, b, c]` returns true iff exactly
one of `a ≤ b` and `b ≤ c` holds. -/
theorem nms_xor (a b c : Rat) : nms [a, b, c] = true ↔ Xor' (a ≤ b) (b ≤ c) := by
  have hw : windows 2 [a, b, c] = [[a, b], [b, c]] := rfl
  by_cases h1 : a ≤ b <;> by_cases h2 : b ≤ c <;>
    simp [nms, hw, h1, h2, Xor']

/-- C4 counterexample: pushing a `Rising` onto a queue whose last element is
`Rising` stores `Noise(0)`, not the claimed `Noise(1)`, and `Hold(0)` /
`Noise(0)` are accepted rather than rejected. -/
theorem push_transition_counterexample :
    push_transition (push_transition [] .Rising) .Rising = [.Noise 0]
    ∧ Transition.Noise 0 ≠ Transition.Noise 1
    ∧ push_transition [] (.Hold 0) = [.Hold 0]
    ∧ push_transition [.Rising] (.Noise 0) = [.Noise 0] :=
  ⟨rfl, by decide, rfl, rfl⟩

/-- C4 amended: a queue built by `push_transition` from empty never holds two
adjacent `Hold` or `Noise` items (indeed never more than one item, because a
non-mergeable pair overwrites the last element instead of appending);
`Hold`/`Hold` and `Noise`/`Noise` coalesce by summing counts, and an edge equal
to the previous edge of the same polarity is replaced by `Noise(0)`;
`Hold(0)` and `Noise(0)` are accepted like any other value. -/
theorem transitions_merge_spec :
    (∀ l : List Transition, (List.foldl push_transition [] l).length ≤ 1)
    ∧ (∀ l : List Transition, noAdjacentMergeable (List.foldl push_transition [] l) = true)
    ∧ (∀ a b : Nat, Transition.transition (.Hold a) (.Hold b) = .Hold (a + b))
    ∧ (∀ a b : Nat, Transition.transition (.Noise a) (.Noise b) = .Noise (a + b))
    ∧ Transition.transition .Rising .Rising = .Noise 0
    ∧ Transition.transition .Falling .Falling = .Noise 0 := by
  have hlen : ∀ (l acc : List Transition), acc.length ≤ 1 →
      (List.foldl push_transition acc l).length ≤ 1 := by
    intro l
    induction l with
    | nil => intro acc h; simpa using h
    | cons t rest ih =>
        intro acc h
        refine ih _ ?_
        rw [push_transition_length]
        omega
  have hadj : ∀ l : List Transition, l.length ≤ 1 → noAdjacentMergeable l = true := by
    intro l h
    match l with
    | [] => rfl
    | [x] => cases x <;> rfl
    | x :: y :: rest => simp at h
  exact ⟨fun l => hlen l [] (by simp), fun l => hadj _ (hlen l [] (by simp)),
    fun a b => rfl, fun a b => rfl, rfl, rfl⟩

/-- C5: `dequeue_realtime_samples` moves exactly the largest window-aligned
prefix, `(len / w) * w` samples, from the realtime backlog to the backlog in
order; afterwards (and again after the drain of
`sample_backlog_to_carrier_amplitudes`) the backlog length is a multiple of
the FFT window size. -/
theorem dequeue_and_drain_aligned (w : Nat) (source target : List Rat)
    (hw : 0 < w) (ht : target.length % w = 0) :
    (dequeue_realtime_samples w source target).2
        = target ++ source.take (source.length / w * w)
    ∧ (dequeue_realtime_samples w source target).1
        = source.drop (source.length / w * w)
    ∧ (dequeue_realtime_samples w source target).2.length % w = 0
    ∧ (sample_backlog_drain w (dequeue_realtime_samples w source target).2).1.length % w = 0 := by
  have hle : source.length / w * w ≤ source.length := Nat.div_mul_le_self _ _
  have hlen2 : (dequeue_realtime_samples w source target).2.length
      = target.length + source.length / w * w := by
    simp [dequeue_realtime_samples, List.length_take, Nat.min_eq_left hle]
  have hmod : (dequeue_realtime_samples w source target).2.length % w = 0 := by
    rw [hlen2, Nat.add_mod, Nat.mul_mod_left, ht]
    simp
  refine ⟨rfl, rfl, hmod, ?_⟩
  have hd : w ∣ (dequeue_realtime_samples w source target).2.length :=
    Nat.dvd_iff_mod_eq_zero.mpr hmod
  exact Nat.dvd_iff_mod_eq_zero.mp
    (sample_backlog_drain_dvd w hw (dequeue_realtime_samples w source target).2.length
      (dequeue_realtime_samples w source target).2 le_rfl hd)

/-- C5 witness. -/
theorem dequeue_and_drain_aligned_witness :
    (dequeue_realtime_samples 2 [1, 2, 3] []).2 = [1, 2]
    ∧ (sample_backlog_drain 2 (dequeue_realtime_samples 2 [1, 2, 3] []).2).1.length % 2 = 0 := by
  have h := dequeue_and_drain_aligned 2 [1, 2, 3] [] (by decide) (by decide)
  exact ⟨by rw [h.1]; rfl, h.2.2.2⟩

theorem band_step_bounds_ok (d : DFT) (freq : Rat) (steps : Nat)
    (h : bandCenter d freq < d.frequency_steps) :
    d.band_step_bounds freq steps =
      .ok (bandCenter d freq - steps, min (bandCenter d freq + steps + 1) d.frequency_steps) := by
  simp only [bandCenter] at h ⊢
  simp only [DFT.band_step_bounds]
  rw [if_pos h]
  have hlow : (if steps ≤ (round (freq / d.step)).toNat
      then (round (freq / d.step)).toNat - steps else 0)
      = (round (freq / d.step)).toNat - steps := by
    split <;> omega
  rw [hlow]

theorem band_step_bounds_err (d : DFT) (freq : Rat) (steps : Nat)
    (h : d.frequency_steps ≤ bandCenter d freq) :
    d.band_step_bounds freq steps = .error .FrequencyOutOfBounds := by
  simp only [bandCenter] at h
  simp only [DFT.band_step_bounds]
  rw [if_neg (by omega)]

/-- C8: the DFT band operations fail with `FrequencyOutOfBounds` exactly when
the band centre `round(freq/step)` reaches `frequency_steps()`, and otherwise
return the bins from `max(center - radius, 0)` (natural subtraction) up to
`min(center + radius + 1, frequency_steps())`, the band clamped to the valid
bin range. -/
theorem band_bounds_spec (d : DFT) (freq bandwidth : Rat) :
    (d.band freq bandwidth = .error .FrequencyOutOfBounds
      ↔ d.frequency_steps ≤ bandCenter d freq)
    ∧ (bandCenter d freq < d.frequency_steps →
        d.band freq bandwidth =
          .ok ((d.dft.take (min (bandCenter d freq
                  + Frequency.bandwidth_steps bandwidth d.step + 1) d.frequency_steps)).drop
            (bandCenter d freq - Frequency.bandwidth_steps bandwidth d.step))) := by
  have hunfold : d.band freq bandwidth =
      (d.band_step_bounds freq (Frequency.bandwidth_steps bandwidth d.step)).map
        (fun b => (d.dft.drop b.1).take (b.2 - b.1)) := rfl
  constructor
  · constructor
    · intro herr
      by_contra hlt
      rw [hunfold, band_step_bounds_ok d freq _ (by omega)] at herr
      exact absurd herr (by simp [Except.map])
    · intro hge
      rw [hunfold, band_step_bounds_err d freq _ hge]
      rfl
  · intro h
    rw [hunfold, band_step_bounds_ok d freq _ h]
    simp only [Except.map]
    rw [List.drop_take]

/-- C8 witness: a sixteen-bin spectrum at rate 16, band centred on frequency 3
with bandwidth 2: centre bin 3, radius 1, bins 2 through 4. -/
theorem band_bounds_spec_witness :
    DFT.band ⟨[0, 1, 2, 3, 4, 5, 6, 7, 8, 9, 10, 11, 12, 13, 14, 15], 16⟩ 3 2
      = .ok [2, 3, 4] := by
  have hstep : DFT.step ⟨[0, 1, 2, 3, 4, 5, 6, 7, 8, 9, 10, 11, 12, 13, 14, 15], 16⟩ = 1 := by
    norm_num [DFT.step, dftStep, SamplingRate.max_frequency, DFT.frequency_steps]
  have hc : bandCenter ⟨[0, 1, 2, 3, 4, 5, 6, 7, 8, 9, 10, 11, 12, 13, 14, 15], 16⟩ 3 = 3 := by
    rw [bandCenter, hstep]
    norm_num
    rfl
  have hr : Frequency.bandwidth_steps 2
      (DFT.step ⟨[0, 1, 2, 3, 4, 5, 6, 7, 8, 9, 10, 11, 12, 13, 14, 15], 16⟩) = 1 := by
    rw [Frequency.bandwidth_steps, hstep]
    norm_num
  have h := (band_bounds_spec ⟨[0, 1, 2, 3, 4, 5, 6, 7, 8, 9, 10, 11, 12, 13, 14, 15], 16⟩
    3 2).2 (by rw [hc]; decide)
  rw [h, hc, hr]
  rfl

theorem foldl_add_of_map (l : List (Rat × Rat)) (a : Rat) :
    l.foldl (fun acc p => acc + p.1 * p.2) a = a + (l.map (fun p => p.1 * p.2)).sum := by
  induction l generalizing a with
  | nil => simp
  | cons p rest ih =>
      simp only [List.foldl_cons, List.map_cons, List.sum_cons, ih]
      ring

theorem zip_foldl_dot (kernel : List Rat) :
    ∀ w : List Rat, kernel.length ≤ w.length →
      (w.zip kernel).foldl (fun acc p => acc + p.1 * p.2) 0
        = ((List.range kernel.length).map (fun j => w.getD j 0 * kernel.getD j 0)).sum := by
  induction kernel with
  | nil => intro w _; simp
  | cons k0 ks ih =>
      intro w hw
      match w with
      | [] => simp at hw
      | w0 :: ws =>
          have hw' : ks.length ≤ ws.length := by
            simpa using hw
          rw [List.zip_cons_cons, foldl_add_of_map, List.map_cons, List.sum_cons]
          rw [List.length_cons, List.range_succ_eq_map, List.map_cons, List.sum_cons]
          simp only [List.getD_cons_zero, List.map_map, zero_add]
          congr 1
          have hrec := ih ws hw'
          rw [foldl_add_of_map, zero_add] at hrec
          rw [hrec]
          apply congrArg List.sum
          apply List.map_congr_left
          intro j hj
          simp [Function.comp, List.getD_cons_succ]

theorem valid_eq_validConv (signal kernel : List Rat) (hlen : kernel.length ≤ signal.length) :
    (windows kernel.length signal).map
        (fun w => (w.zip kernel).foldl (fun acc p => acc + p.1 * p.2) 0)
      = validConv signal kernel := by
  unfold validConv windows conv1d.valid_result_length
  have hlen2 : signal.length + 1 - kernel.length = signal.length - kernel.length + 1 := by omega
  rw [hlen2, List.map_map]
  apply List.map_congr_left
  intro i hi
  simp only [List.mem_range] at hi
  have hw : kernel.length ≤ ((signal.drop i).take kernel.length).length := by
    simp only [List.length_take, List.length_drop]
    omega
  simp only [Function.comp]
  rw [zip_foldl_dot kernel _ hw]
  apply congrArg List.sum
  apply List.map_congr_left
  intro j hj
  simp only [List.mem_range] at hj
  congr 1
  rw [List.getD_eq_getElem?_getD, List.getD_eq_getElem?_getD, List.getElem?_take,
    if_pos hj, List.getElem?_drop]

/-- C7 counterexample: with an empty kernel and an output buffer of the correct
length (`0 - 0 + 1 = 1`), the size checks pass but `signal.windows(0)` panics
(`none`) where the claim requires success. -/
theorem conv1d_valid_counterexample :
    conv1d.valid [] [] [0] = none
    ∧ ¬ (List.length ([] : List Rat) < List.length ([] : List Rat))
    ∧ List.length [(0 : Rat)]
        = conv1d.valid_result_length (List.length ([] : List Rat))
            (List.length ([] : List Rat)) :=
  ⟨rfl, by decide, rfl⟩

/-- C7 amended: for every nonempty kernel, `conv1d::valid` returns
`SignalShorterThanKernel` exactly when the signal is shorter than the kernel;
given that, `IncorrectOutputSize` exactly when the output length differs from
`signal.len() - kernel.len() + 1`; otherwise it succeeds and the output at
index `i` is `Σ_j signal[i+j] * kernel[j]` (the `kernel = []` success case of
the original claim instead panics in `slice::windows(0)`). -/
theorem conv1d_valid_spec (signal kernel result : List Rat) (hk : kernel ≠ []) :
    (conv1d.valid signal kernel result = some (.error .SignalShorterThanKernel)
      ↔ signal.length < kernel.length)
    ∧ (kernel.length ≤ signal.length →
        (conv1d.valid signal kernel result = some (.error .IncorrectOutputSize)
          ↔ result.length ≠ signal.length - kernel.length + 1))
    ∧ (kernel.length ≤ signal.length → result.length = signal.length - kernel.length + 1 →
        conv1d.valid signal kernel result = some (.ok (validConv signal kernel)))
    ∧ (kernel.length ≤ signal.length →
        (validConv signal kernel).length = signal.length - kernel.length + 1)
    ∧ (∀ i, i < (validConv signal kernel).length →
        (validConv signal kernel).getD i 0
          = ((List.range kernel.length).map
              (fun j => signal.getD (i + j) 0 * kernel.getD j 0)).sum) := by
  have hk0 : kernel.length ≠ 0 := fun h => hk (List.length_eq_zero.mp h)
  have hconvlen : (validConv signal kernel).length
      = signal.length - kernel.length + 1 := by
    simp [validConv, conv1d.valid_result_length]
  have hgetD : ∀ i, i < (validConv signal kernel).length →
      (validConv signal kernel).getD i 0
        = ((List.range kernel.length).map
            (fun j => signal.getD (i + j) 0 * kernel.getD j 0)).sum := by
    intro i hi
    rw [hconvlen] at hi
    unfold validConv conv1d.valid_result_length
    rw [List.getD_eq_getElem?_getD, List.getElem?_map, List.getElem?_range hi]
    rfl
  unfold conv1d.valid conv1d.valid_result_length
  split_ifs with h1 h2
  · exact ⟨by simp [h1], fun hle => absurd h1 (by omega),
      fun hle _ => absurd h1 (by omega), fun _ => hconvlen, hgetD⟩
  · refine ⟨by simp [h1], fun _ => by simp [h2], fun hle hres => absurd hres h2,
      fun _ => hconvlen, hgetD⟩
  · push_neg at h2
    refine ⟨by simp [h1], fun _ => by simp [h2], fun hle _ => ?_,
      fun _ => hconvlen, hgetD⟩
    rw [valid_eq_validConv signal kernel (by omega)]

/-- C7 witness: the `valid_samples_longer_than_kernel` vector of the Rust unit
tests. -/
theorem conv1d_valid_spec_witness :
    conv1d.valid [-1, -1, 0, 1, 1, 1, 1, 0, -1, -1] [-1, -1, 0, 1, 1] [0, 0, 0, 0, 0, 0]
      = some (.ok (validConv [-1, -1, 0, 1, 1, 1, 1, 0, -1, -1] [-1, -1, 0, 1, 1]))
    ∧ validConv [-1, -1, 0, 1, 1, 1, 1, 0, -1, -1] [-1, -1, 0, 1, 1] = [4, 3, 1, -1, -3, -4] :=
  ⟨(conv1d_valid_spec [-1, -1, 0, 1, 1, 1, 1, 0, -1, -1] [-1, -1, 0, 1, 1] [0, 0, 0, 0, 0, 0]
      (by decide)).2.2.1 (by decide) (by decide),
    by norm_num [validConv, conv1d.valid_result_length, List.range_succ]⟩

theorem conv1d_valid_ok (signal kernel : List Rat) (hk : kernel ≠ [])
    (hlen : kernel.length ≤ signal.length) :
    conv1d.valid signal kernel
        (List.replicate (conv1d.valid_result_length signal.length kernel.length) 0)
      = some (.ok (validConv signal kernel)) := by
  have hk0 : kernel.length ≠ 0 := fun h => hk (List.length_eq_zero.mp h)
  unfold conv1d.valid
  rw [if_neg (by omega), if_neg (by simp), if_neg hk0, valid_eq_validConv _ _ hlen]

theorem median_non_averaged_eq (l : List Rat) (hl : l ≠ []) :
    median_non_averaged l = some (medianNA l) := by
  unfold median_non_averaged medianNA
  have hne : (l.insertionSort (· ≤ ·)).isEmpty = false := by
    rw [List.isEmpty_eq_false_iff_exists_mem]
    match l with
    | x :: xs => exact ⟨x, (List.Perm.mem_iff (List.perm_insertionSort _ _)).mpr (by simp)⟩
  simp only [hne, if_false, Bool.false_eq_true]
  rw [List.length_insertionSort]

theorem process_eq (signals kernel : List Rat) (hk : kernel ≠ [])
    (hlen : kernel.length ≤ signals.length) :
    TransitionSearch.process signals kernel
      = some ⟨validConv signals kernel, medianNA (validConv signals kernel),
          maxOf (validConv signals kernel),
          signals.length - (validConv signals kernel).length⟩ := by
  have hv := conv1d_valid_ok signals kernel hk hlen
  have hne : validConv signals kernel ≠ [] := by
    have : (validConv signals kernel).length = signals.length - kernel.length + 1 := by
      simp [validConv, conv1d.valid_result_length]
    intro hcontra
    rw [hcontra] at this
    simp at this
  unfold TransitionSearch.process
  rw [if_neg (by omega), hv]
  simp only [median_non_averaged_eq _ hne, Option.getD_some]

/-- C6 counterexample: for signal `[1, 2, 9]` and kernel `[1]` the convolution
is `[1, 2, 9]`; the SNR denominator the code uses is the non-averaged median
`2`, while the mean of the absolute convolution values is `4`. -/
theorem snr_denominator_counterexample :
    (TransitionSearch.process [1, 2, 9] [1]).map TransitionSearch.snr_denominator = some 2
    ∧ (TransitionSearch.process [1, 2, 9] [1]).map (fun ts => meanAbs ts.convolved) = some 4
    ∧ (2 : Rat) ≠ 4 := by
  have hp := process_eq [1, 2, 9] [1] (by decide) (by decide)
  have hconv : validConv [1, 2, 9] [1] = [1, 2, 9] := by
    norm_num [validConv, conv1d.valid_result_length, List.range_succ]
  rw [hconv] at hp
  have hmed : medianNA [(1 : Rat), 2, 9] = 2 := by
    norm_num [medianNA, List.insertionSort, List.orderedInsert]
  refine ⟨?_, ?_, by norm_num⟩
  · rw [hp]
    simp only [Option.map_some']
    rw [TransitionSearch.snr_denominator]
    simp only [hmed]
    norm_num
  · rw [hp]
    simp only [Option.map_some']
    norm_num [meanAbs]

/-- C6 amended: the noise level used as the denominator of the transition
search's SNR is the non-averaged median of the valid convolution (the element
at index `len / 2` of the sorted convolution values), coerced to `f32`'s
machine epsilon when not positive — not the mean of the absolute convolution
values. -/
theorem snr_uses_median (signals kernel : List Rat) (hk : kernel ≠ [])
    (hlen : kernel.length ≤ signals.length) :
    ∃ ts, TransitionSearch.process signals kernel = some ts
      ∧ ts.convolved = validConv signals kernel
      ∧ ts.median = medianNA (validConv signals kernel)
      ∧ ts.snr_denominator = (if 0 < medianNA (validConv signals kernel)
          then medianNA (validConv signals kernel) else EPSILON)
      ∧ ts.snr = Amplitude.relative_to (maxOf (validConv signals kernel))
          (if 0 < medianNA (validConv signals kernel)
            then medianNA (validConv signals kernel) else EPSILON) := by
  refine ⟨_, process_eq signals kernel hk hlen, rfl, rfl, rfl, rfl⟩

/-- C6 amended witness at signal `[1, 2, 9]`, kernel `[1]`. -/
theorem snr_uses_median_witness :
    ∃ ts, TransitionSearch.process [1, 2, 9] [1] = some ts
      ∧ ts.convolved = validConv [1, 2, 9] [1]
      ∧ ts.median = medianNA (validConv [1, 2, 9] [1])
      ∧ ts.snr_denominator = (if 0 < medianNA (validConv [1, 2, 9] [1])
          then medianNA (validConv [1, 2, 9] [1]) else EPSILON)
      ∧ ts.snr = Amplitude.relative_to (maxOf (validConv [1, 2, 9] [1]))
          (if 0 < medianNA (validConv [1, 2, 9] [1])
            then medianNA (validConv [1, 2, 9] [1]) else EPSILON) :=
  snr_uses_median [1, 2, 9] [1] (by decide) (by decide)

theorem read_bit_eq_testBit (b n : Nat) : BitVec.read_bit b n = b.testBit (7 - n) := by
  unfold BitVec.read_bit
  rw [Nat.shiftLeft_eq, one_mul, Nat.and_two_pow]
  cases h : b.testBit (7 - n) <;> simp [h]

theorem testBit_set_bit_self (b n : Nat) (v : Bool) :
    (BitVec.set_bit b n v).testBit (7 - n) = v := by
  have hbit : (1 : Nat) <<< (7 - n) = 2 ^ (7 - n) := by rw [Nat.shiftLeft_eq, one_mul]
  have hxor : (255 : Nat) = 2 ^ 8 - 1 := by norm_num
  have h8 : 7 - n < 8 := by omega
  unfold BitVec.set_bit
  simp only [hbit, hxor]
  cases v
  · simp only [Bool.false_eq_true, if_false, Nat.testBit_and, Nat.testBit_xor,
      Nat.testBit_two_pow_sub_one, Nat.testBit_two_pow]
    simp [h8]
  · simp only [if_true, Nat.testBit_or, Nat.testBit_and, Nat.testBit_xor,
      Nat.testBit_two_pow_sub_one, Nat.testBit_two_pow]
    simp [h8]

theorem testBit_set_bit_other (b n k : Nat) (v : Bool) (hk : k ≠ 7 - n) (hk8 : k < 8) :
    (BitVec.set_bit b n v).testBit k = b.testBit k := by
  have hbit : (1 : Nat) <<< (7 - n) = 2 ^ (7 - n) := by rw [Nat.shiftLeft_eq, one_mul]
  have hxor : (255 : Nat) = 2 ^ 8 - 1 := by norm_num
  have hne : 7 - n ≠ k := fun h => hk h.symm
  unfold BitVec.set_bit
  simp only [hbit, hxor]
  cases v
  · simp only [Bool.false_eq_true, if_false, Nat.testBit_and, Nat.testBit_xor,
      Nat.testBit_two_pow_sub_one, Nat.testBit_two_pow]
    simp [hk8, hne]
  · simp only [if_true, Nat.testBit_or, Nat.testBit_and, Nat.testBit_xor,
      Nat.testBit_two_pow_sub_one, Nat.testBit_two_pow]
    simp [hk8, hne]

theorem set_bit_read_same (b n : Nat) (v : Bool) (hn : n ≤ 7) :
    BitVec.read_bit (BitVec.set_bit b n v) n = v := by
  rw [read_bit_eq_testBit, testBit_set_bit_self]

theorem set_bit_read_other (b n m : Nat) (v : Bool) (hn : n ≤ 7) (hm : m ≤ 7) (hnm : m ≠ n) :
    BitVec.read_bit (BitVec.set_bit b n v) m = BitVec.read_bit b m := by
  rw [read_bit_eq_testBit, read_bit_eq_testBit]
  exact testBit_set_bit_other b n (7 - m) v (by omega) (by omega)

theorem set_bit_lt (b n : Nat) (v : Bool) (hn : n ≤ 7) (hb : b < 256) :
    BitVec.set_bit b n v < 256 := by
  have hband : b &&& (255 ^^^ (1 <<< (7 - n))) < 256 :=
    lt_of_le_of_lt Nat.and_le_left hb
  have hbit : (1 <<< (7 - n)) < 256 := by
    rw [Nat.shiftLeft_eq, one_mul]
    calc 2 ^ (7 - n) < 2 ^ 8 := Nat.pow_lt_pow_right (by omega) (by omega)
    _ = 256 := rfl
  unfold BitVec.set_bit
  cases v
  · simpa using hband
  · simpa using Nat.or_lt_two_pow (n := 8) hband hbit

theorem listResize_grow (l : List Nat) (n pad : Nat) (h : l.length ≤ n) :
    listResize l n pad = l ++ List.replicate (n - l.length) pad := by
  unfold listResize
  rw [if_pos h]

/-- Invariant of `BitVec.push` iterated from the empty bit vector: the bit
length, the byte count, byte range, and MSB-first bit contents. -/
theorem pushList_invariant (bits : List Bool) :
    (BitVec.new.pushList bits).bl = bits.length
    ∧ (BitVec.new.pushList bits).s.length = (bits.length + 7) / 8
    ∧ (∀ b ∈ (BitVec.new.pushList bits).s, b < 256)
    ∧ ∀ i, i < bits.length →
        BitVec.read_bit ((BitVec.new.pushList bits).s.getD (i / 8) 0) (i % 8)
          = bits.getD i false := by
  induction bits using List.reverseRecOn with
  | nil => exact ⟨rfl, rfl, by simp [BitVec.pushList, BitVec.new], by intro i hi; simp at hi⟩
  | append_singleton bs x ih =>
      obtain ⟨hbl, hslen, hmem, hread⟩ := ih
      have hpush : BitVec.new.pushList (bs ++ [x]) = (BitVec.new.pushList bs).push x := by
        unfold BitVec.pushList
        rw [List.foldl_append]
        rfl
      set v := BitVec.new.pushList bs with hv
      set n := bs.length with hn
      have hxbit : (bs ++ [x]).getD n false = x := by
        rw [List.getD_eq_getElem?_getD, hn, List.getElem?_concat_length]
        rfl
      have hbsbit : ∀ i, i < n → (bs ++ [x]).getD i false = bs.getD i false := by
        intro i h
        exact List.getD_append _ _ _ _ (by omega)
      rw [hpush]
      by_cases hr : n % 8 = 0
      · -- the push opens a fresh byte
        have hlen8 : v.s.length = n / 8 := by rw [hslen]; omega
        have hresize : listResize v.s (n / 8 + 1) 0 = v.s ++ [0] := by
          rw [listResize_grow _ _ _ (by rw [hlen8]; omega), hlen8]
          have h1 : n / 8 + 1 - n / 8 = 1 := by omega
          rw [h1]
          rfl
        have hlast : (v.s ++ [0]).getLastD 0 = 0 := by
          rw [List.getLastD_eq_getLast?, List.getLast?_concat]
          rfl
        have harg : (n + 1 - 1) % 8 = n % 8 := by omega
        have hpush2 : v.push x = ⟨v.s ++ [BitVec.set_bit 0 (n % 8) x], n + 1⟩ := by
          simp only [BitVec.push, hresize, List.dropLast_concat, hlast, harg, hbl]
        rw [hpush2]
        refine ⟨by simp, ?_, ?_, ?_⟩
        · simp only [List.length_append, List.length_singleton, hlen8]
          omega
        · intro b hb
          rcases List.mem_append.mp hb with h | h
          · exact hmem b h
          · rw [List.mem_singleton.mp h]
            exact set_bit_lt 0 (n % 8) x (by omega) (by omega)
        · intro i hi
          simp only [List.length_append, List.length_singleton] at hi
          rcases Nat.lt_or_ge i n with hilt | hige
          · have hdiv : i / 8 < v.s.length := by rw [hlen8]; omega
            rw [List.getD_append _ _ _ _ hdiv, hbsbit i hilt]
            exact hread i hilt
          · have hieq : i = n := by omega
            have hdiv : i / 8 = v.s.length := by rw [hieq, hlen8]
            have hmod : i % 8 = n % 8 := by rw [hieq]
            have h1 : (v.s ++ [BitVec.set_bit 0 (n % 8) x]).getD (i / 8) 0
                = BitVec.set_bit 0 (n % 8) x := by
              rw [List.getD_eq_getElem?_getD, hdiv, List.getElem?_concat_length]
              rfl
            rw [h1, hmod, hieq, hxbit, set_bit_read_same _ _ _ (by omega)]
      · -- the push lands in the started last byte
        have hlen8 : v.s.length = n / 8 + 1 := by rw [hslen]; omega
        have hresize : listResize v.s (n / 8 + 1) 0 = v.s := by
          rw [listResize_grow _ _ _ (by rw [hlen8]), hlen8]
          simp
        have hlast : v.s.getLastD 0 = v.s.getD (n / 8) 0 := by
          rw [List.getLastD_eq_getLast?, List.getLast?_eq_getElem?, hlen8,
            List.getD_eq_getElem?_getD]
          simp
        have harg : (n + 1 - 1) % 8 = n % 8 := by omega
        have hpush2 : v.push x
            = ⟨v.s.dropLast ++ [BitVec.set_bit (v.s.getD (n / 8) 0) (n % 8) x], n + 1⟩ := by
          simp only [BitVec.push, hresize, hlast, harg, hbl]
        rw [hpush2]
        have hdroplen : v.s.dropLast.length = n / 8 := by
          rw [List.length_dropLast, hlen8]
          omega
        refine ⟨by simp, ?_, ?_, ?_⟩
        · simp only [List.length_append, List.length_singleton, hdroplen]
          omega
        · intro b hb
          rcases List.mem_append.mp hb with h | h
          · exact hmem b (List.dropLast_subset _ h)
          · rw [List.mem_singleton.mp h]
            refine set_bit_lt _ (n % 8) x (by omega) ?_
            have hcase : v.s.getD (n / 8) 0 ∈ v.s ∨ v.s.getD (n / 8) 0 = 0 := by
              rw [List.getD_eq_getElem?_getD]
              cases hq : v.s[n / 8]? with
              | none => exact Or.inr rfl
              | some b0 => exact Or.inl (by simpa [hq] using List.getElem?_mem hq)
            rcases hcase with h0 | h0
            · exact hmem _ h0
            · rw [h0]; omega
        · intro i hi
          simp only [List.length_append, List.length_singleton] at hi
          rcases Nat.lt_or_ge (i / 8) (n / 8) with hdlt | hdge
          · have hilt : i < n := by omega
            have h1 : (v.s.dropLast ++ [BitVec.set_bit (v.s.getD (n / 8) 0) (n % 8) x]).getD
                (i / 8) 0 = v.s.getD (i / 8) 0 := by
              rw [List.getD_append _ _ _ _ (by omega : i / 8 < v.s.dropLast.length)]
              rw [List.getD_eq_getElem?_getD, List.getD_eq_getElem?_getD,
                List.getElem?_dropLast, if_pos (by omega : i / 8 < v.s.length - 1)]
            rw [h1, hbsbit i hilt]
            exact hread i hilt
          · have hdeq : i / 8 = n / 8 := by omega
            have h1 : (v.s.dropLast ++ [BitVec.set_bit (v.s.getD (n / 8) 0) (n % 8) x]).getD
                (i / 8) 0 = BitVec.set_bit (v.s.getD (n / 8) 0) (n % 8) x := by
              rw [List.getD_eq_getElem?_getD, hdeq, ← hdroplen, List.getElem?_concat_length]
              rfl
            rw [h1]
            rcases Nat.lt_or_ge i n with hilt | hige
            · have hmne : i % 8 ≠ n % 8 := by omega
              rw [set_bit_read_other _ _ _ _ (by omega) (by omega) hmne, hbsbit i hilt,
                ← hdeq]
              exact hread i hilt
            · have hieq : i = n := by omega
              have hmod : i % 8 = n % 8 := by rw [hieq]
              rw [hmod, hieq, hxbit, set_bit_read_same _ _ _ (by omega)]

/-- C10: pushing bits `b_0 .. b_{n-1}` into a fresh `BitVec` gives `len() = n`,
a byte vector of exactly `⌈n/8⌉` bytes, and
`read_bit(byte_vec()[i/8], i % 8) = b_i` for every `i < n` (bits stored
MSB-first within each byte): push followed by `read_bit` is an exact
round-trip. -/
theorem bitvec_roundtrip (bits : List Bool) :
    (BitVec.new.pushList bits).len = bits.length
    ∧ (BitVec.new.pushList bits).byte_vec.length = (bits.length + 7) / 8
    ∧ ∀ i, i < bits.length →
        BitVec.read_bit ((BitVec.new.pushList bits).byte_vec.getD (i / 8) 0) (i % 8)
          = bits.getD i false :=
  ⟨(pushList_invariant bits).1, (pushList_invariant bits).2.1,
    (pushList_invariant bits).2.2.2⟩

/-- C10 witness: nine pushed bits make two bytes; the ninth bit is read back
from byte 1, bit position 0. -/
theorem bitvec_roundtrip_witness :
    (BitVec.new.pushList [true, false, false, true, true, false, false, false, true]).len = 9
    ∧ (BitVec.new.pushList
        [true, false, false, true, true, false, false, false, true]).byte_vec.length = 2
    ∧ BitVec.read_bit ((BitVec.new.pushList
        [true, false, false, true, true, false, false, false, true]).byte_vec.getD 1 0) 0
      = true := by
  have h := bitvec_roundtrip [true, false, false, true, true, false, false, false, true]
  refine ⟨h.1, by rw [h.2.1]; rfl, ?_⟩
  have h8 := h.2.2 8 (by decide)
  simpa using h8

/-! ## NRZI encoder characterization -/

theorem payloadBits_length (P : List Nat) : (payloadBits P).length = 8 * P.length := by
  induction P with
  | nil => rfl
  | cons b rest ih =>
      simp only [payloadBits, List.map_cons, List.flatten_cons, List.length_append,
        List.length_cons]
      rw [show (payloadBits rest).length = (List.map byteBits rest).flatten.length from rfl] at ih
      rw [ih]
      have : (byteBits b).length = 8 := by simp [byteBits]
      rw [this]
      ring

theorem byteBits_getElem? (b boff : Nat) (hboff : boff < 8) :
    (byteBits b)[boff]? = some (b.testBit (7 - boff)) := by
  simp only [byteBits, List.getElem?_map, List.getElem?_range hboff, Option.map_some']

theorem payloadBits_getElem? (P : List Nat) :
    ∀ (off boff : Nat), off < P.length → boff < 8 →
      (payloadBits P)[8 * off + boff]?
        = (P[off]?).map (fun byte => byte.testBit (7 - boff)) := by
  induction P with
  | nil => intro off boff h _; simp at h
  | cons b rest ih =>
      intro off boff hoff hboff
      match off with
      | 0 =>
          have h8 : (byteBits b).length = 8 := by simp [byteBits]
          show ((byteBits b ++ payloadBits rest))[8 * 0 + boff]? = _
          rw [List.getElem?_append, if_pos (by omega)]
          simp only [Nat.mul_zero, Nat.zero_add]
          rw [byteBits_getElem? b boff hboff]
          simp
      | off + 1 =>
          have h8 : (byteBits b).length = 8 := by simp [byteBits]
          show ((byteBits b ++ payloadBits rest))[8 * (off + 1) + boff]? = _
          rw [List.getElem?_append, if_neg (by omega)]
          have hidx : 8 * (off + 1) + boff - (byteBits b).length = 8 * off + boff := by
            rw [h8]; ring_nf; omega
          rw [hidx, ih off boff (by simpa using hoff) hboff, List.getElem?_cons_succ]

theorem current_bit_eq (c : EncParameters) (off boff z pre : Nat) (sm : EncSM)
    (hoff : off < c.payload.length) (hboff : boff ≤ 7) :
    current_bit? c ⟨off, boff, z, pre, sm⟩
      = some ((payloadBits c.payload).getD (8 * off + boff) false) := by
  have hb := payloadBits_getElem? c.payload off boff hoff (by omega)
  show (c.payload[off]?).map (fun byte => (byte &&& (1 <<< (7 - boff))) != 0)
      = some ((payloadBits c.payload).getD (8 * off + boff) false)
  cases hq : c.payload[off]? with
  | none =>
      rw [List.getElem?_eq_none_iff] at hq
      omega
  | some byte =>
      rw [hq] at hb
      simp only [Option.map_some']
      congr 1
      rw [List.getD_eq_getElem?_getD, hb]
      simp only [Option.map_some', Option.getD_some]
      have hshift : (1 : Nat) <<< (7 - boff) = 2 ^ (7 - boff) := by
        rw [Nat.shiftLeft_eq, one_mul]
      rw [hshift, Nat.and_two_pow]
      cases h : byte.testBit (7 - boff) <;> simp [h]

theorem collect_cons (c : EncParameters) (fuel : Nat) (s s' : EncState) (v : Value)
    (hnext : next? c s = some (some v, s')) :
    collect c (fuel + 1) s = (collect c fuel s').map (fun r => (v :: r.1, r.2)) := by
  conv_lhs => rw [collect]
  rw [hnext]

theorem collect_stop (c : EncParameters) (fuel : Nat) (s s' : EncState)
    (hnext : next? c s = some (none, s')) :
    collect c (fuel + 1) s = some ([], s') := by
  conv_lhs => rw [collect]
  rw [hnext]

theorem collect_panic (c : EncParameters) (fuel : Nat) (s : EncState)
    (hnext : next? c s = none) :
    collect c (fuel + 1) s = none := by
  conv_lhs => rw [collect]
  rw [hnext]

theorem next_bof (c : EncParameters) (off boff z k : Nat) :
    next? c ⟨off, boff, z, k, .BeginOfFrame⟩
      = some (some (.StartOfFrame k),
          ⟨off, boff, z, k + 1,
            if k + 1 < c.preamble then .BeginOfFrame else .Payload⟩) := rfl

theorem next_eof (c : EncParameters) (off boff z pre : Nat) :
    next? c ⟨off, boff, z, pre, .EndOfFrame⟩
      = some (some (.EndOfFrame z),
          ⟨off, boff, z + 1, pre,
            if c.stuff_bit_after + 1 < z + 1 then .Complete else .EndOfFrame⟩) := rfl

theorem next_complete (c : EncParameters) (off boff z pre : Nat) :
    next? c ⟨off, boff, z, pre, .Complete⟩
      = some (none, ⟨off, boff, z, pre, .Complete⟩) := rfl

theorem next_payload_stuff (c : EncParameters) (off boff z pre : Nat) (b : Bool)
    (hb : current_bit? c ⟨off, boff, z, pre, .Payload⟩ = some b)
    (hz : c.stuff_bit_after ≤ z) (hoff : off < c.payload.length) :
    next? c ⟨off, boff, z, pre, .Payload⟩
      = some (some .StuffBit, ⟨off, boff, 0, pre, .Payload⟩) := by
  have hstuff : stuffing c ⟨off, boff, z, pre, .Payload⟩ = true := by
    simp [stuffing, hz]
  have hcur : current? c ⟨off, boff, z, pre, .Payload⟩ = some .StuffBit := by
    simp [current?, hstuff]
  have heof : is_end_of_frame c ⟨off, boff, 0, pre, .Payload⟩ = false := by
    simp only [is_end_of_frame, decide_eq_false_iff_not, not_le]
    omega
  have hadv : advance? c ⟨off, boff, z, pre, .Payload⟩ = some ⟨off, boff, 0, pre, .Payload⟩ := by
    unfold advance?
    rw [hb]
    simp only [Option.map_some', hstuff, if_true, heof, if_false, Bool.false_eq_true]
  unfold next?
  rw [hcur, hadv]
  rfl

theorem current_payload_bit (c : EncParameters) (off boff z pre : Nat) (b : Bool)
    (hb : current_bit? c ⟨off, boff, z, pre, .Payload⟩ = some b)
    (hz : z < c.stuff_bit_after) :
    current? c ⟨off, boff, z, pre, .Payload⟩ = some (.Bit b) := by
  have hstuff : stuffing c ⟨off, boff, z, pre, .Payload⟩ = false := by
    simp only [stuffing, decide_eq_false_iff_not, not_le]
    omega
  unfold current?
  rw [hstuff, hb]
  rfl

theorem next_payload_bit_mid (c : EncParameters) (off boff z pre : Nat) (b : Bool)
    (hb : current_bit? c ⟨off, boff, z, pre, .Payload⟩ = some b)
    (hz : z < c.stuff_bit_after) (hboff : boff < 7) (hoff : off < c.payload.length) :
    next? c ⟨off, boff, z, pre, .Payload⟩
      = some (some (.Bit b), ⟨off, boff + 1, (if b then 0 else z + 1), pre, .Payload⟩) := by
  have hstuff : stuffing c ⟨off, boff, z, pre, .Payload⟩ = false := by
    simp only [stuffing, decide_eq_false_iff_not, not_le]
    omega
  have hadvb : advance_bit ⟨off, boff, (if b then 0 else z + 1), pre, .Payload⟩
      = ⟨off, boff + 1, (if b then 0 else z + 1), pre, .Payload⟩ := by
    unfold advance_bit
    rw [if_pos (by simpa using hboff)]
  have heof : is_end_of_frame c ⟨off, boff + 1, (if b then 0 else z + 1), pre, .Payload⟩
      = false := by
    simp only [is_end_of_frame, decide_eq_false_iff_not, not_le]
    omega
  have hadv : advance? c ⟨off, boff, z, pre, .Payload⟩
      = some ⟨off, boff + 1, (if b then 0 else z + 1), pre, .Payload⟩ := by
    unfold advance?
    rw [hb]
    simp only [Option.map_some', hstuff, Bool.false_eq_true, if_false, hadvb, heof]
  unfold next?
  rw [current_payload_bit c off boff z pre b hb hz, hadv]
  rfl

theorem next_payload_bit_next_byte (c : EncParameters) (off z pre : Nat) (b : Bool)
    (hb : current_bit? c ⟨off, 7, z, pre, .Payload⟩ = some b)
    (hz : z < c.stuff_bit_after) (hoff : off + 1 < c.payload.length) :
    next? c ⟨off, 7, z, pre, .Payload⟩
      = some (some (.Bit b), ⟨off + 1, 0, (if b then 0 else z + 1), pre, .Payload⟩) := by
  have hstuff : stuffing c ⟨off, 7, z, pre, .Payload⟩ = false := by
    simp only [stuffing, decide_eq_false_iff_not, not_le]
    omega
  have hadvb : advance_bit ⟨off, 7, (if b then 0 else z + 1), pre, .Payload⟩
      = ⟨off + 1, 0, (if b then 0 else z + 1), pre, .Payload⟩ := by
    unfold advance_bit
    rw [if_neg (by simp)]
  have heof : is_end_of_frame c ⟨off + 1, 0, (if b then 0 else z + 1), pre, .Payload⟩
      = false := by
    simp only [is_end_of_frame, decide_eq_false_iff_not, not_le]
    omega
  have hadv : advance? c ⟨off, 7, z, pre, .Payload⟩
      = some ⟨off + 1, 0, (if b then 0 else z + 1), pre, .Payload⟩ := by
    unfold advance?
    rw [hb]
    simp only [Option.map_some', hstuff, Bool.false_eq_true, if_false, hadvb, heof]
  unfold next?
  rw [current_payload_bit c off 7 z pre b hb hz, hadv]
  rfl

theorem next_payload_bit_last (c : EncParameters) (off z pre : Nat) (b : Bool)
    (hb : current_bit? c ⟨off, 7, z, pre, .Payload⟩ = some b)
    (hz : z < c.stuff_bit_after) (hoff : c.payload.length = off + 1) :
    next? c ⟨off, 7, z, pre, .Payload⟩
      = some (some (.Bit b), ⟨off + 1, 0, 0, pre, .EndOfFrame⟩) := by
  have hstuff : stuffing c ⟨off, 7, z, pre, .Payload⟩ = false := by
    simp only [stuffing, decide_eq_false_iff_not, not_le]
    omega
  have hadvb : advance_bit ⟨off, 7, (if b then 0 else z + 1), pre, .Payload⟩
      = ⟨off + 1, 0, (if b then 0 else z + 1), pre, .Payload⟩ := by
    unfold advance_bit
    rw [if_neg (by simp)]
  have heof : is_end_of_frame c ⟨off + 1, 0, (if b then 0 else z + 1), pre, .Payload⟩
      = true := by
    simp only [is_end_of_frame, decide_eq_true_eq]
    omega
  have hadv : advance? c ⟨off, 7, z, pre, .Payload⟩
      = some ⟨off + 1, 0, 0, pre, .EndOfFrame⟩ := by
    unfold advance?
    rw [hb]
    simp only [Option.map_some', hstuff, Bool.false_eq_true, if_false, hadvb, heof, if_true]
  unfold next?
  rw [current_payload_bit c off 7 z pre b hb hz, hadv]
  rfl

theorem next_payload_oob (c : EncParameters) (off boff z pre : Nat)
    (hoff : c.payload.length ≤ off) (hz : z < c.stuff_bit_after) :
    next? c ⟨off, boff, z, pre, .Payload⟩ = none := by
  have hnone : current_bit? c ⟨off, boff, z, pre, .Payload⟩ = none := by
    unfold current_bit?
    rw [List.getElem?_eq_none (by simpa using hoff)]
    rfl
  have hstuff : stuffing c ⟨off, boff, z, pre, .Payload⟩ = false := by
    simp only [stuffing, decide_eq_false_iff_not, not_le]
    omega
  have hcur : current? c ⟨off, boff, z, pre, .Payload⟩ = none := by
    unfold current?
    rw [hstuff, hnone]
    rfl
  unfold next?
  rw [hcur]
  rfl

theorem collect_at_complete (c : EncParameters) (fuel off boff z pre : Nat) (hf : 1 ≤ fuel) :
    collect c fuel ⟨off, boff, z, pre, .Complete⟩
      = some ([], ⟨off, boff, z, pre, .Complete⟩) := by
  match fuel, hf with
  | fuel + 1, _ => exact collect_stop c fuel _ _ (next_complete c off boff z pre)

theorem collect_eof (c : EncParameters) :
    ∀ (m fuel off boff z pre : Nat), z + m = c.stuff_bit_after + 2 →
      z ≤ c.stuff_bit_after + 1 → m + 1 ≤ fuel →
      ∃ sf, collect c fuel ⟨off, boff, z, pre, .EndOfFrame⟩
          = some ((List.range' z m).map Value.EndOfFrame, sf)
        ∧ sf.sm = .Complete := by
  intro m
  induction m with
  | zero => intro fuel off boff z pre hm hz hf; omega
  | succ m ih =>
      intro fuel off boff z pre hm hz hf
      match fuel, hf with
      | fuel + 1, _ =>
        rw [collect_cons c fuel _ _ _ (next_eof c off boff z pre)]
        by_cases hend : c.stuff_bit_after + 1 < z + 1
        · have hzeq : z = c.stuff_bit_after + 1 := by omega
          have hm0 : m = 0 := by omega
          rw [if_pos hend, collect_at_complete c fuel off boff (z + 1) pre (by omega)]
          refine ⟨⟨off, boff, z + 1, pre, .Complete⟩, ?_, rfl⟩
          subst hm0
          rfl
        · rw [if_neg hend]
          obtain ⟨sf, hc, hsm⟩ := ih fuel off boff (z + 1) pre (by omega) (by omega) (by omega)
          rw [hc]
          refine ⟨sf, ?_, hsm⟩
          rw [List.range'_succ]
          rfl

theorem collect_payload (c : EncParameters) (hsba : 1 ≤ c.stuff_bit_after) :
    ∀ (n fuel off boff z pre : Nat),
      n = 8 * c.payload.length - (8 * off + boff) →
      off < c.payload.length → boff ≤ 7 →
      2 * n + c.stuff_bit_after + 4 ≤ fuel →
      ∃ sf, collect c fuel ⟨off, boff, z, pre, .Payload⟩
          = some (stuffedAux c.stuff_bit_after
              ((payloadBits c.payload).drop (8 * off + boff)) z
              ++ eofList c.stuff_bit_after, sf)
        ∧ sf.sm = .Complete := by
  intro n
  induction n using Nat.strong_induction_on with
  | _ n ih =>
      intro fuel off boff z pre hn hoff hboff hfuel
      have hidx : 8 * off + boff < 8 * c.payload.length := by omega
      have hpos : 1 ≤ n := by omega
      have hlt : 8 * off + boff < (payloadBits c.payload).length := by
        rw [payloadBits_length]
        omega
      set b := (payloadBits c.payload).getD (8 * off + boff) false with hbdef
      have hb : ∀ z2 sm2, current_bit? c ⟨off, boff, z2, pre, sm2⟩ = some b :=
        fun z2 sm2 => current_bit_eq c off boff z2 pre sm2 hoff hboff
      have hdrop : (payloadBits c.payload).drop (8 * off + boff)
          = b :: (payloadBits c.payload).drop (8 * off + boff + 1) := by
        rw [List.drop_eq_getElem_cons hlt]
        congr 1
        rw [hbdef, List.getD_eq_getElem?_getD, List.getElem?_eq_getElem hlt]
        rfl
      -- one bit-consuming step followed by the rest of the stream
      have step_bit : ∀ (fuel2 z2 : Nat), z2 < c.stuff_bit_after →
          2 * n + c.stuff_bit_after + 3 ≤ fuel2 →
          ∃ sf, collect c fuel2 ⟨off, boff, z2, pre, .Payload⟩
              = some (.Bit b :: (stuffedAux c.stuff_bit_after
                  ((payloadBits c.payload).drop (8 * off + boff + 1))
                  (if b then 0 else z2 + 1)
                  ++ eofList c.stuff_bit_after), sf)
            ∧ sf.sm = .Complete := by
        intro fuel2 z2 hz2 hfuel2
        match fuel2, hfuel2 with
        | fuel2 + 1, _ =>
          by_cases hb7 : boff < 7
          · -- stays inside the byte
            rw [collect_cons c fuel2 _ _ _
              (next_payload_bit_mid c off boff z2 pre b (hb z2 .Payload) hz2 hb7 hoff)]
            obtain ⟨sf, hc, hsm⟩ := ih (n - 1) (by omega) fuel2 off (boff + 1)
              (if b then 0 else z2 + 1) pre (by omega) hoff (by omega) (by omega)
            rw [hc]
            have harith : 8 * off + (boff + 1) = 8 * off + boff + 1 := by omega
            rw [harith] at hc ⊢
            exact ⟨sf, rfl, hsm⟩
          · have hb7e : boff = 7 := by omega
            subst hb7e
            by_cases hlast : off + 1 < c.payload.length
            · -- moves to the next byte
              rw [collect_cons c fuel2 _ _ _
                (next_payload_bit_next_byte c off z2 pre b (hb z2 .Payload) hz2 hlast)]
              obtain ⟨sf, hc, hsm⟩ := ih (n - 1) (by omega) fuel2 (off + 1) 0
                (if b then 0 else z2 + 1) pre (by omega) hlast (by omega) (by omega)
              rw [hc]
              have harith : 8 * (off + 1) + 0 = 8 * off + 7 + 1 := by omega
              rw [harith] at hc ⊢
              exact ⟨sf, rfl, hsm⟩
            · -- the last payload bit: the encoder moves to the trailer
              have hlen : c.payload.length = off + 1 := by omega
              rw [collect_cons c fuel2 _ _ _
                (next_payload_bit_last c off z2 pre b (hb z2 .Payload) hz2 hlen)]
              obtain ⟨sf, hc, hsm⟩ := collect_eof c (c.stuff_bit_after + 2) fuel2
                (off + 1) 0 0 pre (by omega) (by omega) (by omega)
              rw [hc]
              have hdrop2 : (payloadBits c.payload).drop (8 * off + 7 + 1) = [] := by
                apply List.drop_eq_nil_of_le
                rw [payloadBits_length]
                omega
              rw [hdrop2]
              refine ⟨sf, ?_, hsm⟩
              simp only [stuffedAux, List.nil_append, eofList, List.range_eq_range']
              rfl
      by_cases hz : c.stuff_bit_after ≤ z
      · -- a stuff bit is emitted first, without advancing the cursor
        match fuel, hfuel with
        | fuel + 1, _ =>
          rw [collect_cons c fuel _ _ _
            (next_payload_stuff c off boff z pre b (hb z .Payload) hz hoff)]
          obtain ⟨sf, hc, hsm⟩ := step_bit fuel 0 (by omega) (by omega)
          rw [hc]
          refine ⟨sf, ?_, hsm⟩
          rw [hdrop]
          simp only [stuffedAux, if_pos hz, List.cons_append, Option.map_some']
      · obtain ⟨sf, hc, hsm⟩ := step_bit fuel z (by omega) (by omega)
        rw [hc]
        refine ⟨sf, ?_, hsm⟩
        rw [hdrop]
        simp only [stuffedAux, if_neg hz, List.cons_append]

theorem collect_bof (c : EncParameters) :
    ∀ (r k fuel : Nat), r = max c.preamble 1 - k → k < max c.preamble 1 → r ≤ fuel →
      collect c fuel ⟨0, 0, 0, k, .BeginOfFrame⟩
        = (collect c (fuel - r) ⟨0, 0, 0, max c.preamble 1, .Payload⟩).map
            (fun res => (((List.range' k r).map Value.StartOfFrame) ++ res.1, res.2)) := by
  intro r
  induction r with
  | zero => intro k fuel hr hk hf; omega
  | succ r ih =>
      intro k fuel hr hk hf
      match fuel, hf with
      | fuel + 1, _ =>
        rw [collect_cons c fuel _ _ _ (next_bof c 0 0 0 k)]
        by_cases hcont : k + 1 < c.preamble
        · rw [if_pos hcont]
          have hmax : max c.preamble 1 = c.preamble := by omega
          rw [ih (k + 1) fuel (by omega) (by omega) (by omega)]
          have hfr : fuel - r = fuel + 1 - (r + 1) := by omega
          rw [← hfr, Option.map_map]
          cases collect c (fuel - r) ⟨0, 0, 0, max c.preamble 1, .Payload⟩ with
          | none => rfl
          | some res =>
              simp only [Option.map_some', Function.comp]
              rw [List.range'_succ]
              rfl
        · rw [if_neg hcont]
          have hkeq : k + 1 = max c.preamble 1 := by omega
          have hr0 : r = 0 := by omega
          subst hr0
          rw [hkeq]
          have hfr : fuel + 1 - 1 = fuel := by omega
          rw [hfr]
          cases collect c fuel ⟨0, 0, 0, max c.preamble 1, .Payload⟩ with
          | none => rfl
          | some res => rfl

/-- The full characterization of the encoder iterator for a nonempty payload
and `stuff_bit_after ≥ 1`, stated over the parameter record. -/
theorem nrzi_characterization_params (c : EncParameters) (hP : c.payload ≠ [])
    (hs : 1 ≤ c.stuff_bit_after) :
    ∃ sf, collect c (fuelFor c) EncState.init
        = some (sofList c.preamble
            ++ (stuffedAux c.stuff_bit_after (payloadBits c.payload) 0
                ++ eofList c.stuff_bit_after), sf)
      ∧ sf.sm = .Complete := by
  have hlen : 0 < c.payload.length := List.length_pos.mpr hP
  have hfuel : max c.preamble 1 ≤ fuelFor c := by
    simp only [fuelFor]
    omega
  have hbof := collect_bof c (max c.preamble 1) 0 (fuelFor c) (by omega) (by omega) hfuel
  obtain ⟨sf, hc, hsm⟩ := collect_payload c hs (8 * c.payload.length)
    (fuelFor c - max c.preamble 1) 0 0 0 (max c.preamble 1) (by omega) hlen (by omega)
    (by simp only [fuelFor]; omega)
  refine ⟨sf, ?_, hsm⟩
  show collect c (fuelFor c) ⟨0, 0, 0, 0, .BeginOfFrame⟩ = _
  rw [hbof]
  simp only [Nat.mul_zero, Nat.add_zero, List.drop_zero] at hc
  rw [hc]
  simp only [Option.map_some']
  rw [sofList, List.range_eq_range']

/-- The full characterization of the encoder iterator for a nonempty payload
and `stuff_bit_after ≥ 1`: preamble `StartOfFrame`s, then the bit-stuffed
payload section, then the `EndOfFrame` trailer; the iterator stops in the
`Complete` state without yielding `Complete`. -/
theorem nrzi_characterization (P : List Nat) (sba pre : Nat) (hP : P ≠ []) (hs : 1 ≤ sba) :
    ∃ sf, NRZI_run P sba pre
        = some (sofList pre ++ (stuffedAux sba (payloadBits P) 0 ++ eofList sba), sf)
      ∧ sf.sm = .Complete :=
  nrzi_characterization_params ⟨P, sba, pre⟩ hP hs

/-- The encoder panics on the empty payload, stated over the parameter
record. -/
theorem nrzi_empty_params (c : EncParameters) (hP : c.payload = []) :
    (collect c (fuelFor c) EncState.init).map Prod.fst = none := by
  have hfuel : max c.preamble 1 ≤ fuelFor c := by
    simp only [fuelFor]
    omega
  have hbof := collect_bof c (max c.preamble 1) 0 (fuelFor c) (by omega) (by omega) hfuel
  have hrem : 1 ≤ fuelFor c - max c.preamble 1 := by
    simp only [fuelFor]
    omega
  have hsba0 : 0 < c.stuff_bit_after ∨ c.stuff_bit_after = 0 := by omega
  have hpanic : collect c (fuelFor c - max c.preamble 1)
      ⟨0, 0, 0, max c.preamble 1, .Payload⟩ = none ∨
      c.stuff_bit_after = 0 := by
    rcases hsba0 with h | h
    · left
      match hfe : fuelFor c - max c.preamble 1, hrem with
      | fuel + 1, _ =>
        exact collect_panic _ fuel _
          (next_payload_oob _ 0 0 0 (max c.preamble 1) (by simp [hP]) (by omega))
    · right
      exact h
  rcases hpanic with h | h
  · show (collect c (fuelFor c) ⟨0, 0, 0, 0, .BeginOfFrame⟩).map Prod.fst = none
    rw [hbof, h]
    rfl
  · -- stuff_bit_after = 0: the encoder at an empty payload still panics,
    -- because the unconditional current_bit read precedes the stuffing branch
    have hnone : current_bit? c ⟨0, 0, 0, max c.preamble 1, .Payload⟩ = none := by
      unfold current_bit?
      rw [List.getElem?_eq_none (by simp [hP])]
      rfl
    have hadv : advance? c ⟨0, 0, 0, max c.preamble 1, .Payload⟩ = none := by
      unfold advance?
      rw [hnone]
      rfl
    have hcur : current? c ⟨0, 0, 0, max c.preamble 1, .Payload⟩ = some .StuffBit := by
      unfold current?
      have hstuff : stuffing c ⟨0, 0, 0, max c.preamble 1, .Payload⟩ = true := by
        simp [stuffing, h]
      rw [hstuff]
      rfl
    have hnext : next? c ⟨0, 0, 0, max c.preamble 1, .Payload⟩ = none := by
      unfold next?
      rw [hcur, hadv]
      rfl
    have hpanic2 : collect c (fuelFor c - max c.preamble 1)
        ⟨0, 0, 0, max c.preamble 1, .Payload⟩ = none := by
      match hfe : fuelFor c - max c.preamble 1, hrem with
      | fuel + 1, _ => exact collect_panic _ fuel _ hnext
    show (collect c (fuelFor c) ⟨0, 0, 0, 0, .BeginOfFrame⟩).map Prod.fst = none
    rw [hbof, hpanic2]
    rfl

/-- The encoder panics on the empty payload: after the preamble it enters the
`Payload` phase and indexes `payload[0]` out of bounds. -/
theorem nrzi_empty (sba pre : Nat) : nrziIter [] sba pre = none :=
  nrzi_empty_params ⟨[], sba, pre⟩ rfl

theorem stuffedAux_mem (sba : Nat) :
    ∀ (rem : List Bool) (z : Nat) (v : Value), v ∈ stuffedAux sba rem z →
      (∃ b, v = .Bit b) ∨ v = .StuffBit := by
  intro rem
  induction rem with
  | nil => intro z v hv; simp [stuffedAux] at hv
  | cons b rest ih =>
      intro z v hv
      by_cases hz : sba ≤ z
      · simp only [stuffedAux, if_pos hz, List.mem_cons] at hv
        rcases hv with h | h | h
        · exact Or.inr h
        · exact Or.inl ⟨b, h⟩
        · exact ih _ v h
      · simp only [stuffedAux, if_neg hz, List.mem_cons] at hv
        rcases hv with h | h
        · exact Or.inl ⟨b, h⟩
        · exact ih _ v h

theorem getLast?_cons_of_ne_nil {α : Type} (a : α) (l : List α) (h : l ≠ []) :
    (a :: l).getLast? = l.getLast? := by
  match l, h with
  | x :: xs, _ => exact List.getLast?_cons_cons

theorem stuffedAux_cons_ne_nil (sba : Nat) (b : Bool) (rest : List Bool) (z : Nat) :
    stuffedAux sba (b :: rest) z ≠ [] := by
  have hunfold : stuffedAux sba (b :: rest) z
      = if sba ≤ z then .StuffBit :: .Bit b :: stuffedAux sba rest (if b then 0 else 1)
        else .Bit b :: stuffedAux sba rest (if b then 0 else z + 1) := rfl
  rw [hunfold]
  split <;> simp

theorem stuffedAux_getLast (sba : Nat) :
    ∀ (rem : List Bool) (z : Nat), rem ≠ [] →
      ∃ b, (stuffedAux sba rem z).getLast? = some (.Bit b) := by
  intro rem
  induction rem with
  | nil => intro z h; exact absurd rfl h
  | cons b rest ih =>
      intro z _
      have hunfold : stuffedAux sba (b :: rest) z
          = if sba ≤ z then .StuffBit :: .Bit b :: stuffedAux sba rest (if b then 0 else 1)
            else .Bit b :: stuffedAux sba rest (if b then 0 else z + 1) := rfl
      match rest, ih with
      | [], _ =>
          refine ⟨b, ?_⟩
          rw [hunfold]
          split <;> rfl
      | r :: rest2, ih =>
          rw [hunfold]
          by_cases hz : sba ≤ z
          · rw [if_pos hz, List.getLast?_cons_cons,
              getLast?_cons_of_ne_nil _ _ (stuffedAux_cons_ne_nil sba r rest2 _)]
            exact ih _ (by simp)
          · rw [if_neg hz,
              getLast?_cons_of_ne_nil _ _ (stuffedAux_cons_ne_nil sba r rest2 _)]
            exact ih _ (by simp)

theorem current_complete (c : EncParameters) (s : EncState) (h : s.sm = .Complete) :
    current? c s = some .Complete := by
  obtain ⟨off, boff, z, p, sm⟩ := s
  simp only at h
  subst h
  rfl

theorem complete_not_mem_stream (P : List Nat) (sba pre : Nat) :
    Value.Complete ∉ sofList pre ++ (stuffedAux sba (payloadBits P) 0 ++ eofList sba) := by
  intro hmem
  rcases List.mem_append.mp hmem with h | h
  · simp only [sofList, List.mem_map] at h
    obtain ⟨i, _, hi⟩ := h
    exact absurd hi (by simp)
  · rcases List.mem_append.mp h with h2 | h2
    · rcases stuffedAux_mem sba _ _ _ h2 with ⟨b, hb⟩ | hb <;> simp at hb
    · simp only [eofList, List.mem_map] at h2
      obtain ⟨i, _, hi⟩ := h2
      exact absurd hi (by simp)

/-- C2 counterexample: on the empty payload the encoder panics before any
trailer (`payload[0]` out of bounds), and on payload `[0x00]` with
`stuff_bit_after = 1` the iterator ends after the trailer without ever
yielding `Complete` (`next()` maps the `Complete` state to `None`). -/
theorem nrzi_complete_counterexample :
    nrziIter [] 1 0 = none
    ∧ (∃ l, nrziIter [0] 1 0 = some l ∧ Value.Complete ∉ l
        ∧ l.getLast? ≠ some Value.Complete) := by
  refine ⟨nrzi_empty 1 0, ⟨_, rfl, by decide, by decide⟩⟩

/-- C2 amended: for every nonempty payload and `1 ≤ stuff_bit_after ≤ 253` —
the upper bound keeping the source's `u8` trailer arithmetic
(`contigous_zeros + 1` up to `stuff_bit_after + 2`, and `stuff_bit_after + 1`,
src/encodings/enc.rs lines 108-115) free of overflow, so that the `Nat` model
is exact; at 254 and 255 the program instead panics in debug or wraps in
release — after the payload section, whose last item is a payload `Bit`, the
encoder emits exactly the `stuff_bit_after + 2` trailer items
`EndOfFrame(0) .. EndOfFrame(stuff_bit_after + 1)`, and then the iterator is
exhausted: the state machine rests in `Complete` (its `current()` is
`Complete`) but `Complete` is never yielded as an item. -/
theorem nrzi_trailer_spec (P : List Nat) (sba pre : Nat) (hP : P ≠ []) (hs : 1 ≤ sba)
    (hs253 : sba ≤ 253) :
    ∃ l sf, nrziIter P sba pre = some l
      ∧ l = sofList pre ++ (stuffedAux sba (payloadBits P) 0 ++ eofList sba)
      ∧ eofList sba = (List.range (sba + 2)).map Value.EndOfFrame
      ∧ (eofList sba).length = sba + 2
      ∧ (∀ v ∈ stuffedAux sba (payloadBits P) 0, (∃ b, v = .Bit b) ∨ v = .StuffBit)
      ∧ (∃ b, (stuffedAux sba (payloadBits P) 0).getLast? = some (.Bit b))
      ∧ Value.Complete ∉ l
      ∧ NRZI_run P sba pre = some (l, sf)
      ∧ current? ⟨P, sba, pre⟩ sf = some .Complete := by
  obtain ⟨sf, hrun, hsm⟩ := nrzi_characterization P sba pre hP hs
  have hbits : payloadBits P ≠ [] := by
    intro hcontra
    have h1 := payloadBits_length P
    rw [hcontra] at h1
    have hlen : 0 < P.length := List.length_pos.mpr hP
    simp only [List.length_nil] at h1
    omega
  refine ⟨_, sf, by rw [nrziIter, hrun]; rfl, rfl, rfl, by simp [eofList],
    fun v hv => stuffedAux_mem sba _ _ v hv, stuffedAux_getLast sba _ 0 hbits,
    complete_not_mem_stream P sba pre, hrun, current_complete _ sf hsm⟩

/-- C2 witness at payload `[0b1001_1000]`, `stuff_bit_after = 4`,
`preamble = 0`. -/
theorem nrzi_trailer_spec_witness :
    ∃ l sf, nrziIter [152] 4 0 = some l
      ∧ l = sofList 0 ++ (stuffedAux 4 (payloadBits [152]) 0 ++ eofList 4)
      ∧ eofList 4 = (List.range 6).map Value.EndOfFrame
      ∧ (eofList 4).length = 6
      ∧ (∀ v ∈ stuffedAux 4 (payloadBits [152]) 0, (∃ b, v = .Bit b) ∨ v = .StuffBit)
      ∧ (∃ b, (stuffedAux 4 (payloadBits [152]) 0).getLast? = some (.Bit b))
      ∧ Value.Complete ∉ l
      ∧ NRZI_run [152] 4 0 = some (l, sf)
      ∧ current? ⟨[152], 4, 0⟩ sf = some .Complete :=
  nrzi_trailer_spec [152] 4 0 (by decide) (by decide) (by decide)

theorem zRB_of_no_bit_false (sba : Nat) :
    ∀ (l : List Value), Value.Bit false ∉ l → ∀ c, zeroRunsBounded sba l c = true := by
  intro l
  induction l with
  | nil => intro _ c; rfl
  | cons v rest ih =>
      intro hmem c
      have hv : v ≠ .Bit false := fun h => hmem (h ▸ List.mem_cons_self v rest)
      have hrest : Value.Bit false ∉ rest := fun h => hmem (List.mem_cons_of_mem _ h)
      match v, hv with
      | .StartOfFrame i, _ => exact ih hrest 0
      | .Bit true, _ => exact ih hrest 0
      | .Bit false, hv2 => exact absurd rfl hv2
      | .EndOfFrame i, _ => exact ih hrest 0
      | .StuffBit, _ => exact ih hrest 0
      | .Complete, _ => exact ih hrest 0

theorem zRB_eofList (sba : Nat) (c : Nat) :
    zeroRunsBounded sba (eofList sba) c = true := by
  apply zRB_of_no_bit_false
  intro h
  simp only [eofList, List.mem_map] at h
  obtain ⟨i, _, hi⟩ := h
  exact absurd hi (by simp)

theorem zRB_sof_prefix (sba : Nat) :
    ∀ (n k : Nat) (t : List Value),
      zeroRunsBounded sba ((List.range' k n).map .StartOfFrame ++ t) 0
        = zeroRunsBounded sba t 0 := by
  intro n
  induction n with
  | zero => intro k t; rfl
  | succ n ih =>
      intro k t
      rw [List.range'_succ]
      exact ih (k + 1) t

theorem zRB_stuffedAux (sba : Nat) (hs : 1 ≤ sba) :
    ∀ (rem : List Bool) (z : Nat) (t : List Value), z ≤ sba →
      (∀ c, zeroRunsBounded sba t c = true) →
      zeroRunsBounded sba (stuffedAux sba rem z ++ t) z = true := by
  intro rem
  induction rem with
  | nil =>
      intro z t _ ht
      simpa [stuffedAux] using ht z
  | cons b rest ih =>
      intro z t hz ht
      by_cases hstuff : sba ≤ z
      · simp only [stuffedAux, if_pos hstuff, List.cons_append]
        cases b
        · show zeroRunsBounded sba (.Bit false :: (stuffedAux sba rest 1 ++ t)) 0 = true
          show (decide (0 + 1 ≤ sba) && zeroRunsBounded sba (stuffedAux sba rest 1 ++ t) 1) = true
          rw [Bool.and_eq_true, decide_eq_true_eq]
          exact ⟨by omega, ih 1 t (by omega) ht⟩
        · show zeroRunsBounded sba (.Bit true :: (stuffedAux sba rest 0 ++ t)) 0 = true
          show zeroRunsBounded sba (stuffedAux sba rest 0 ++ t) 0 = true
          exact ih 0 t (by omega) ht
      · simp only [stuffedAux, if_neg hstuff, List.cons_append]
        cases b
        · show (decide (z + 1 ≤ sba) && zeroRunsBounded sba (stuffedAux sba rest (z + 1) ++ t)
              (z + 1)) = true
          rw [Bool.and_eq_true, decide_eq_true_eq]
          exact ⟨by omega, ih (z + 1) t (by omega) ht⟩
        · show zeroRunsBounded sba (stuffedAux sba rest 0 ++ t) 0 = true
          exact ih 0 t (by omega) ht

/-- C3: in the emitted symbol stream no run of consecutive `Bit(false)` items
exceeds `stuff_bit_after` (a `StuffBit` or any other non-zero-bit item ends a
run), and whenever the contiguous-zeros counter has reached `stuff_bit_after`
in the `Payload` phase, the current emission is `StuffBit` and advancing
resets the counter without moving the payload cursor. -/
theorem nrzi_zero_runs :
    (∀ (P : List Nat) (sba pre : Nat) (l : List Value), 1 ≤ sba →
        nrziIter P sba pre = some l → zeroRunsBounded sba l 0 = true)
    ∧ (∀ (c : EncParameters) (s : EncState), s.sm = .Payload →
        c.stuff_bit_after ≤ s.contigous_zeros → s.payload_offset < c.payload.length →
        current? c s = some .StuffBit
        ∧ ∃ s2, advance? c s = some s2 ∧ s2.payload_offset = s.payload_offset
          ∧ s2.current_bit_offset = s.current_bit_offset
          ∧ s2.contigous_zeros = 0 ∧ s2.sm = .Payload) := by
  constructor
  · intro P sba pre l hs henc
    by_cases hP : P = []
    · subst hP
      rw [nrzi_empty sba pre] at henc
      exact absurd henc (by simp)
    · obtain ⟨sf, hrun, _⟩ := nrzi_characterization P sba pre hP hs
      have hl : l = sofList pre ++ (stuffedAux sba (payloadBits P) 0 ++ eofList sba) := by
        rw [nrziIter, hrun] at henc
        simpa using henc.symm
      subst hl
      rw [sofList, List.range_eq_range', zRB_sof_prefix]
      exact zRB_stuffedAux sba hs (payloadBits P) 0 (eofList sba) (by omega)
        (zRB_eofList sba)
  · intro c s hsm hz hoff
    obtain ⟨off, boff, z, p, sm⟩ := s
    simp only at hsm hz hoff
    subst hsm
    have hstuff : stuffing c ⟨off, boff, z, p, .Payload⟩ = true := by
      simp [stuffing, hz]
    have hbyte : ∃ byte, c.payload[off]? = some byte :=
      ⟨c.payload[off], List.getElem?_eq_getElem hoff⟩
    obtain ⟨byte, hbyte⟩ := hbyte
    have hbit : current_bit? c ⟨off, boff, z, p, .Payload⟩
        = some ((byte &&& (1 <<< (7 - boff))) != 0) := by
      show (c.payload[off]?).map (fun byte => (byte &&& (1 <<< (7 - boff))) != 0) = _
      rw [hbyte]
      rfl
    constructor
    · unfold current?
      rw [hstuff]
      rfl
    · refine ⟨⟨off, boff, 0, p, .Payload⟩, ?_, rfl, rfl, rfl, rfl⟩
      unfold advance?
      rw [hbit]
      simp only [Option.map_some', hstuff, if_true]
      have heof : is_end_of_frame c ⟨off, boff, 0, p, .Payload⟩ = false := by
        simp only [is_end_of_frame, decide_eq_false_iff_not, not_le]
        omega
      rw [heof]
      rfl

/-- C3 witness: the run bound on the encoding of `[0b1001_1000]` with
`stuff_bit_after = 4`, and the stuffing step at a concrete `Payload` state
whose counter has reached the limit. -/
theorem nrzi_zero_runs_witness :
    (∃ l, nrziIter [152] 4 0 = some l ∧ zeroRunsBounded 4 l 0 = true)
    ∧ (current? ⟨[0], 1, 0⟩ ⟨0, 3, 1, 0, .Payload⟩ = some .StuffBit
        ∧ ∃ s2, advance? ⟨[0], 1, 0⟩ ⟨0, 3, 1, 0, .Payload⟩ = some s2
          ∧ s2.payload_offset = 0 ∧ s2.current_bit_offset = 3
          ∧ s2.contigous_zeros = 0 ∧ s2.sm = .Payload) := by
  constructor
  · exact ⟨_, rfl, nrzi_zero_runs.1 [152] 4 0 _ (by decide) rfl⟩
  · have h := nrzi_zero_runs.2 ⟨[0], 1, 0⟩ ⟨0, 3, 1, 0, .Payload⟩ rfl (by decide) (by decide)
    exact ⟨h.1, h.2⟩

/-! ## Decoder step equations and merge invariance -/

theorem parseLoop_nil (bs pre idx : Nat) (sm : NRZIState) (sof : Nat) (bv : BitVec) :
    parseLoop bs pre [] idx sm sof bv = .ok (sm, bv) := rfl

theorem parseLoop_done (bs pre : Nat) (l : List Transition) (idx i sof : Nat) (bv : BitVec) :
    parseLoop bs pre l idx (.Done i) sof bv = .ok (.Done i, bv) := by
  cases l with
  | nil => rfl
  | cons t rest => cases t <;> rfl

theorem parseLoop_begin_rising (bs pre : Nat) (rest : List Transition) (idx v sof : Nat)
    (bv : BitVec) :
    parseLoop bs pre (.Rising :: rest) idx (.Begin v) sof bv
      = if v % 2 = 0 then
          parseLoop bs pre rest (idx + 1)
            (if sof + 1 < pre then .Begin (sof + 1) else .Bit 0) (sof + 1) bv
        else .error .IncorrectStartOfFrame := rfl

theorem parseLoop_begin_falling (bs pre : Nat) (rest : List Transition) (idx v sof : Nat)
    (bv : BitVec) :
    parseLoop bs pre (.Falling :: rest) idx (.Begin v) sof bv
      = if v % 2 = 1 then
          parseLoop bs pre rest (idx + 1)
            (if sof + 1 < pre then .Begin (sof + 1) else .Bit 0) (sof + 1) bv
        else .error .IncorrectStartOfFrame := rfl

theorem parseLoop_begin_noise (bs pre : Nat) (n : Nat) (rest : List Transition)
    (idx v sof : Nat) (bv : BitVec) :
    parseLoop bs pre (.Noise n :: rest) idx (.Begin v) sof bv
      = if v = 0 then parseLoop bs pre rest (idx + 1) (.Begin 0) sof bv
        else .error .IncorrectStartOfFrame := rfl

theorem parseLoop_begin_hold (bs pre : Nat) (p : Nat) (rest : List Transition)
    (idx v sof : Nat) (bv : BitVec) :
    parseLoop bs pre (.Hold p :: rest) idx (.Begin v) sof bv
      = .error .IncorrectStartOfFrame := rfl

theorem parseLoop_bit_hold (bs pre : Nat) (p : Nat) (rest : List Transition)
    (idx hc sof : Nat) (bv : BitVec) :
    parseLoop bs pre (.Hold p :: rest) idx (.Bit hc) sof bv
      = if p + hc ≤ bs then
          parseLoop bs pre rest (idx + 1) (.Bit (hc + p)) sof (pushFalses bv p)
        else .error .IncorrectBitStuffingInTransitions := rfl

theorem parseLoop_bit_noise (bs pre : Nat) (n : Nat) (rest : List Transition)
    (idx hc sof : Nat) (bv : BitVec) :
    parseLoop bs pre (.Noise n :: rest) idx (.Bit hc) sof bv
      = if bs ≤ hc then
          parseLoop bs pre rest (idx + 1) (.Done (idx + 1)) sof
            bv.truncate_last_incomplete_byte
        else .error .IncompleteFrame := rfl

theorem parseLoop_bit_rising (bs pre : Nat) (rest : List Transition) (idx hc sof : Nat)
    (bv : BitVec) :
    parseLoop bs pre (.Rising :: rest) idx (.Bit hc) sof bv
      = parseLoop bs pre rest (idx + 1) (.Bit 0) sof
          (if hc < bs then bv.push true else bv) := rfl

theorem parseLoop_bit_falling (bs pre : Nat) (rest : List Transition) (idx hc sof : Nat)
    (bv : BitVec) :
    parseLoop bs pre (.Falling :: rest) idx (.Bit hc) sof bv
      = parseLoop bs pre rest (idx + 1) (.Bit 0) sof
          (if hc < bs then bv.push true else bv) := rfl

theorem loopEquiv_refl (a : Except DecError (NRZIState × BitVec)) : loopEquiv a a := by
  cases a with
  | error e => exact rfl
  | ok p => exact ⟨rfl, .inl rfl⟩

theorem loopEquiv_trans {a b c : Except DecError (NRZIState × BitVec)}
    (h1 : loopEquiv a b) (h2 : loopEquiv b c) : loopEquiv a c := by
  rcases a with e1 | ⟨sm1, bv1⟩ <;> rcases b with e2 | ⟨sm2, bv2⟩ <;>
    rcases c with e3 | ⟨sm3, bv3⟩ <;> simp only [loopEquiv] at h1 h2 ⊢
  · exact h1.trans h2
  · obtain ⟨hb1, hs1⟩ := h1
    obtain ⟨hb2, hs2⟩ := h2
    refine ⟨hb1.trans hb2, ?_⟩
    rcases hs1 with h | ⟨i, j, hij1, hij2⟩
    · rw [h]; exact hs2
    · rcases hs2 with h | ⟨i2, j2, h21, h22⟩
      · exact .inr ⟨i, j, hij1, h ▸ hij2⟩
      · exact .inr ⟨i, j2, hij1, h22⟩

/-- `parseLoop` depends on the enumeration index only through the index stored
in `Done`, and treats any two `Done` states alike. -/
theorem parseLoop_cong (bs pre : Nat) (l : List Transition) :
    ∀ (idx1 idx2 : Nat) (sm1 sm2 : NRZIState) (sof : Nat) (bv : BitVec),
      (sm1 = sm2 ∨ ∃ i j, sm1 = .Done i ∧ sm2 = .Done j) →
      loopEquiv (parseLoop bs pre l idx1 sm1 sof bv) (parseLoop bs pre l idx2 sm2 sof bv) := by
  induction l with
  | nil =>
    intro idx1 idx2 sm1 sm2 sof bv h
    rw [parseLoop_nil, parseLoop_nil]
    exact ⟨rfl, h⟩
  | cons t rest ih =>
    intro idx1 idx2 sm1 sm2 sof bv h
    rcases h with rfl | ⟨i, j, rfl, rfl⟩
    · cases sm1 with
      | Begin v =>
        cases t with
        | Rising =>
          rw [parseLoop_begin_rising, parseLoop_begin_rising]
          by_cases hv : v % 2 = 0
          · rw [if_pos hv, if_pos hv]; exact ih _ _ _ _ _ _ (.inl rfl)
          · rw [if_neg hv, if_neg hv]; exact loopEquiv_refl _
        | Falling =>
          rw [parseLoop_begin_falling, parseLoop_begin_falling]
          by_cases hv : v % 2 = 1
          · rw [if_pos hv, if_pos hv]; exact ih _ _ _ _ _ _ (.inl rfl)
          · rw [if_neg hv, if_neg hv]; exact loopEquiv_refl _
        | Noise n =>
          rw [parseLoop_begin_noise, parseLoop_begin_noise]
          by_cases hv : v = 0
          · rw [if_pos hv, if_pos hv]; exact ih _ _ _ _ _ _ (.inl rfl)
          · rw [if_neg hv, if_neg hv]; exact loopEquiv_refl _
        | Hold p =>
          rw [parseLoop_begin_hold, parseLoop_begin_hold]; exact loopEquiv_refl _
      | Bit hc =>
        cases t with
        | Hold p =>
          rw [parseLoop_bit_hold, parseLoop_bit_hold]
          by_cases hp : p + hc ≤ bs
          · rw [if_pos hp, if_pos hp]; exact ih _ _ _ _ _ _ (.inl rfl)
          · rw [if_neg hp, if_neg hp]; exact loopEquiv_refl _
        | Noise n =>
          rw [parseLoop_bit_noise, parseLoop_bit_noise]
          by_cases hn : bs ≤ hc
          · rw [if_pos hn, if_pos hn]
            exact ih _ _ _ _ _ _ (.inr ⟨idx1 + 1, idx2 + 1, rfl, rfl⟩)
          · rw [if_neg hn, if_neg hn]; exact loopEquiv_refl _
        | Rising =>
          rw [parseLoop_bit_rising, parseLoop_bit_rising]
          exact ih _ _ _ _ _ _ (.inl rfl)
        | Falling =>
          rw [parseLoop_bit_falling, parseLoop_bit_falling]
          exact ih _ _ _ _ _ _ (.inl rfl)
      | Done i =>
        rw [parseLoop_done, parseLoop_done]
        exact ⟨rfl, .inl rfl⟩
    · rw [parseLoop_done, parseLoop_done]
      exact ⟨rfl, .inr ⟨i, j, rfl, rfl⟩⟩

theorem pushList_cons (v : BitVec) (b : Bool) (bits : List Bool) :
    v.pushList (b :: bits) = (v.push b).pushList bits := rfl

theorem pushList_append (v : BitVec) (a b : List Bool) :
    v.pushList (a ++ b) = (v.pushList a).pushList b := by
  simp [BitVec.pushList, List.foldl_append]

theorem pushFalses_eq_pushList (n : Nat) :
    ∀ v : BitVec, pushFalses v n = v.pushList (List.replicate n false) := by
  induction n with
  | zero => intro v; rfl
  | succ n ih =>
    intro v
    show pushFalses (v.push false) n = _
    rw [ih (v.push false)]
    rfl

theorem pushFalses_add (v : BitVec) (m n : Nat) :
    pushFalses v (m + n) = pushFalses (pushFalses v m) n := by
  rw [pushFalses_eq_pushList, pushFalses_eq_pushList, pushFalses_eq_pushList,
    List.replicate_add, pushList_append]

/-- Stepping `parseLoop` through the same head transition preserves
`loopEquiv` of the tails. -/
theorem parseLoop_head_cong (bs pre : Nat) (l1 l2 : List Transition)
    (hrec : ∀ (idx1 idx2 : Nat) (sm : NRZIState) (sof : Nat) (bv : BitVec),
      loopEquiv (parseLoop bs pre l1 idx1 sm sof bv) (parseLoop bs pre l2 idx2 sm sof bv))
    (t : Transition) (idx1 idx2 : Nat) (sm : NRZIState) (sof : Nat) (bv : BitVec) :
    loopEquiv (parseLoop bs pre (t :: l1) idx1 sm sof bv)
      (parseLoop bs pre (t :: l2) idx2 sm sof bv) := by
  cases sm with
  | Begin v =>
    cases t with
    | Rising =>
      rw [parseLoop_begin_rising, parseLoop_begin_rising]
      by_cases hv : v % 2 = 0
      · rw [if_pos hv, if_pos hv]; exact hrec _ _ _ _ _
      · rw [if_neg hv, if_neg hv]; exact loopEquiv_refl _
    | Falling =>
      rw [parseLoop_begin_falling, parseLoop_begin_falling]
      by_cases hv : v % 2 = 1
      · rw [if_pos hv, if_pos hv]; exact hrec _ _ _ _ _
      · rw [if_neg hv, if_neg hv]; exact loopEquiv_refl _
    | Noise n =>
      rw [parseLoop_begin_noise, parseLoop_begin_noise]
      by_cases hv : v = 0
      · rw [if_pos hv, if_pos hv]; exact hrec _ _ _ _ _
      · rw [if_neg hv, if_neg hv]; exact loopEquiv_refl _
    | Hold p =>
      rw [parseLoop_begin_hold, parseLoop_begin_hold]; exact loopEquiv_refl _
  | Bit hc =>
    cases t with
    | Hold p =>
      rw [parseLoop_bit_hold, parseLoop_bit_hold]
      by_cases hp : p + hc ≤ bs
      · rw [if_pos hp, if_pos hp]; exact hrec _ _ _ _ _
      · rw [if_neg hp, if_neg hp]; exact loopEquiv_refl _
    | Noise n =>
      rw [parseLoop_bit_noise, parseLoop_bit_noise]
      by_cases hn : bs ≤ hc
      · rw [if_pos hn, if_pos hn, parseLoop_done, parseLoop_done]
        exact ⟨rfl, .inr ⟨idx1 + 1, idx2 + 1, rfl, rfl⟩⟩
      · rw [if_neg hn, if_neg hn]; exact loopEquiv_refl _
    | Rising =>
      rw [parseLoop_bit_rising, parseLoop_bit_rising]; exact hrec _ _ _ _ _
    | Falling =>
      rw [parseLoop_bit_falling, parseLoop_bit_falling]; exact hrec _ _ _ _ _
  | Done i =>
    rw [parseLoop_done, parseLoop_done]
    exact ⟨rfl, .inl rfl⟩

/-- Coalescing an adjacent `Hold` pair does not change the parse outcome. -/
theorem parseLoop_hold_merge (bs pre : Nat) (p q : Nat) (rest : List Transition)
    (idx1 idx2 : Nat) (sm : NRZIState) (sof : Nat) (bv : BitVec) :
    loopEquiv (parseLoop bs pre (.Hold (p + q) :: rest) idx1 sm sof bv)
      (parseLoop bs pre (.Hold p :: .Hold q :: rest) idx2 sm sof bv) := by
  cases sm with
  | Begin v =>
    rw [parseLoop_begin_hold, parseLoop_begin_hold]; exact loopEquiv_refl _
  | Bit hc =>
    rw [parseLoop_bit_hold, parseLoop_bit_hold]
    by_cases h : p + q + hc ≤ bs
    · rw [if_pos h, if_pos (show p + hc ≤ bs by omega), parseLoop_bit_hold,
        if_pos (show q + (hc + p) ≤ bs by omega)]
      have h1 : hc + (p + q) = hc + p + q := by omega
      have h2 : pushFalses bv (p + q) = pushFalses (pushFalses bv p) q := pushFalses_add bv p q
      rw [h1, h2]
      exact parseLoop_cong bs pre rest _ _ _ _ _ _ (.inl rfl)
    · rw [if_neg h]
      by_cases h2 : p + hc ≤ bs
      · rw [if_pos h2, parseLoop_bit_hold, if_neg (show ¬ q + (hc + p) ≤ bs by omega)]
        exact rfl
      · rw [if_neg h2]; exact rfl
  | Done i =>
    rw [parseLoop_done, parseLoop_done]
    exact ⟨rfl, .inl rfl⟩

/-- Coalescing an adjacent `Noise` pair does not change the parse outcome. -/
theorem parseLoop_noise_merge (bs pre : Nat) (p q : Nat) (rest : List Transition)
    (idx1 idx2 : Nat) (sm : NRZIState) (sof : Nat) (bv : BitVec) :
    loopEquiv (parseLoop bs pre (.Noise (p + q) :: rest) idx1 sm sof bv)
      (parseLoop bs pre (.Noise p :: .Noise q :: rest) idx2 sm sof bv) := by
  cases sm with
  | Begin v =>
    rw [parseLoop_begin_noise, parseLoop_begin_noise]
    by_cases hv : v = 0
    · rw [if_pos hv, if_pos hv, parseLoop_begin_noise, if_pos rfl]
      exact parseLoop_cong bs pre rest _ _ _ _ _ _ (.inl rfl)
    · rw [if_neg hv, if_neg hv]; exact loopEquiv_refl _
  | Bit hc =>
    rw [parseLoop_bit_noise, parseLoop_bit_noise]
    by_cases hn : bs ≤ hc
    · rw [if_pos hn, if_pos hn, parseLoop_done, parseLoop_done]
      exact ⟨rfl, .inr ⟨idx1 + 1, idx2 + 1, rfl, rfl⟩⟩
    · rw [if_neg hn, if_neg hn]; exact loopEquiv_refl _
  | Done i =>
    rw [parseLoop_done, parseLoop_done]
    exact ⟨rfl, .inl rfl⟩

/-- The head-recursive merge never changes the parse outcome. -/
theorem parseLoop_mergeGo (bs pre : Nat) (l : List Transition) :
    ∀ (acc : Transition) (idx1 idx2 : Nat) (sm : NRZIState) (sof : Nat) (bv : BitVec),
      loopEquiv (parseLoop bs pre (mergeGo acc l) idx1 sm sof bv)
        (parseLoop bs pre (acc :: l) idx2 sm sof bv) := by
  induction l with
  | nil =>
    intro acc idx1 idx2 sm sof bv
    have h0 : mergeGo acc [] = [acc] := by cases acc <;> rfl
    rw [h0]
    exact parseLoop_cong bs pre [acc] idx1 idx2 sm sm sof bv (.inl rfl)
  | cons y rest ih =>
    intro acc idx1 idx2 sm sof bv
    cases acc with
    | Hold p =>
      cases y with
      | Hold q =>
        exact loopEquiv_trans (ih (.Hold (p + q)) idx1 idx2 sm sof bv)
          (parseLoop_hold_merge bs pre p q rest idx2 idx2 sm sof bv)
      | Rising =>
        exact parseLoop_head_cong bs pre _ _ (fun i1 i2 => ih .Rising i1 i2) _ idx1 idx2 sm sof bv
      | Falling =>
        exact parseLoop_head_cong bs pre _ _ (fun i1 i2 => ih .Falling i1 i2) _ idx1 idx2 sm sof bv
      | Noise q =>
        exact parseLoop_head_cong bs pre _ _ (fun i1 i2 => ih (.Noise q) i1 i2) _ idx1 idx2 sm sof bv
    | Noise p =>
      cases y with
      | Noise q =>
        exact loopEquiv_trans (ih (.Noise (p + q)) idx1 idx2 sm sof bv)
          (parseLoop_noise_merge bs pre p q rest idx2 idx2 sm sof bv)
      | Rising =>
        exact parseLoop_head_cong bs pre _ _ (fun i1 i2 => ih .Rising i1 i2) _ idx1 idx2 sm sof bv
      | Falling =>
        exact parseLoop_head_cong bs pre _ _ (fun i1 i2 => ih .Falling i1 i2) _ idx1 idx2 sm sof bv
      | Hold q =>
        exact parseLoop_head_cong bs pre _ _ (fun i1 i2 => ih (.Hold q) i1 i2) _ idx1 idx2 sm sof bv
    | Rising =>
      cases y <;>
        exact parseLoop_head_cong bs pre _ _ (fun i1 i2 => ih _ i1 i2) _ idx1 idx2 sm sof bv
    | Falling =>
      cases y <;>
        exact parseLoop_head_cong bs pre _ _ (fun i1 i2 => ih _ i1 i2) _ idx1 idx2 sm sof bv

/-- The fold form of the merge pass extends the accumulated front. -/
theorem foldl_mergeStep (l : List Transition) :
    ∀ (F : List Transition) (a : Transition),
      List.foldl mergeStep (F ++ [a]) l = F ++ mergeGo a l := by
  induction l with
  | nil =>
    intro F a
    have h0 : mergeGo a [] = [a] := by cases a <;> rfl
    rw [h0]
    rfl
  | cons y rest ih =>
    intro F a
    show List.foldl mergeStep (mergeStep (F ++ [a]) y) rest = _
    cases a with
    | Hold p =>
      cases y with
      | Hold q =>
        have hstep : mergeStep (F ++ [.Hold p]) (.Hold q) = F ++ [.Hold (p + q)] := by
          simp [mergeStep, List.getLast?_concat, List.dropLast_concat]
        rw [hstep, ih F (Transition.Hold (p + q))]
        rfl
      | Rising =>
        have hstep : mergeStep (F ++ [.Hold p]) .Rising = (F ++ [.Hold p]) ++ [.Rising] := by
          simp [mergeStep, List.getLast?_concat]
        rw [hstep, ih (F ++ [Transition.Hold p]) .Rising]
        simp [mergeGo]
      | Falling =>
        have hstep : mergeStep (F ++ [.Hold p]) .Falling = (F ++ [.Hold p]) ++ [.Falling] := by
          simp [mergeStep, List.getLast?_concat]
        rw [hstep, ih (F ++ [Transition.Hold p]) .Falling]
        simp [mergeGo]
      | Noise q =>
        have hstep : mergeStep (F ++ [.Hold p]) (.Noise q) = (F ++ [.Hold p]) ++ [.Noise q] := by
          simp [mergeStep, List.getLast?_concat]
        rw [hstep, ih (F ++ [Transition.Hold p]) (.Noise q)]
        simp [mergeGo]
    | Noise p =>
      cases y with
      | Noise q =>
        have hstep : mergeStep (F ++ [.Noise p]) (.Noise q) = F ++ [.Noise (p + q)] := by
          simp [mergeStep, List.getLast?_concat, List.dropLast_concat]
        rw [hstep, ih F (Transition.Noise (p + q))]
        rfl
      | Rising =>
        have hstep : mergeStep (F ++ [.Noise p]) .Rising = (F ++ [.Noise p]) ++ [.Rising] := by
          simp [mergeStep, List.getLast?_concat]
        rw [hstep, ih (F ++ [Transition.Noise p]) .Rising]
        simp [mergeGo]
      | Falling =>
        have hstep : mergeStep (F ++ [.Noise p]) .Falling = (F ++ [.Noise p]) ++ [.Falling] := by
          simp [mergeStep, List.getLast?_concat]
        rw [hstep, ih (F ++ [Transition.Noise p]) .Falling]
        simp [mergeGo]
      | Hold q =>
        have hstep : mergeStep (F ++ [.Noise p]) (.Hold q) = (F ++ [.Noise p]) ++ [.Hold q] := by
          simp [mergeStep, List.getLast?_concat]
        rw [hstep, ih (F ++ [Transition.Noise p]) (.Hold q)]
        simp [mergeGo]
    | Rising =>
      have hstep : mergeStep (F ++ [.Rising]) y = (F ++ [.Rising]) ++ [y] := by
        cases y <;> simp [mergeStep, List.getLast?_concat]
      rw [hstep, ih (F ++ [Transition.Rising]) y]
      cases y <;> simp [mergeGo]
    | Falling =>
      have hstep : mergeStep (F ++ [.Falling]) y = (F ++ [.Falling]) ++ [y] := by
        cases y <;> simp [mergeStep, List.getLast?_concat]
      rw [hstep, ih (F ++ [Transition.Falling]) y]
      cases y <;> simp [mergeGo]

/-- The source's fold-based merge equals the head-recursive merge. -/
theorem mergeTransitions_eq_mergeRec (l : List Transition) :
    mergeTransitions l = mergeRec l := by
  cases l with
  | nil => rfl
  | cons x rest =>
    show List.foldl mergeStep (mergeStep [] x) rest = mergeGo x rest
    have h0 : mergeStep [] x = [] ++ [x] := rfl
    rw [h0, foldl_mergeStep rest [] x]
    rfl

/-- The merge pass of `nrzi_to_transition_states` does not change the parse
outcome. -/
theorem parse_merge (l : List Transition) (bs pre : Nat) :
    parse (mergeTransitions l) bs pre = parse l bs pre := by
  rw [mergeTransitions_eq_mergeRec]
  cases l with
  | nil => rfl
  | cons x rest =>
    have h := parseLoop_mergeGo bs pre rest x 0 0 (.Begin 0) 0 BitVec.new
    show parse (mergeGo x rest) bs pre = _
    unfold parse
    rcases hL : parseLoop bs pre (mergeGo x rest) 0 (.Begin 0) 0 BitVec.new with e1 | ⟨sm1, bv1⟩ <;>
      rcases hR : parseLoop bs pre (x :: rest) 0 (.Begin 0) 0 BitVec.new with e2 | ⟨sm2, bv2⟩ <;>
      rw [hL, hR] at h <;> simp only [loopEquiv] at h
    · rw [h]
    · obtain ⟨rfl, hs⟩ := h
      rcases hs with rfl | ⟨i, j, rfl, rfl⟩
      · rfl
      · rfl

/-! ## Converter structure lemmas -/

theorem except_map_map {α β γ ε : Type} (f : α → β) (g : β → γ) (e : Except ε α) :
    (e.map f).map g = e.map (fun x => g (f x)) := by
  cases e <;> rfl

theorem neg_neg_level (lv : BinaryLevel) : lv.neg.neg = lv := by cases lv <;> rfl

theorem convGo_sof_low (k : Nat) (rest : List Value) :
    convGo .Low (.StartOfFrame k :: rest) = (convGo .High rest).map (.Rising :: ·) := rfl

theorem convGo_stuff (lv : BinaryLevel) (rest : List Value) :
    convGo lv (.StuffBit :: rest) = (convGo lv.neg rest).map (lv.transition :: ·) := by
  cases lv <;> rfl

theorem convGo_bit_true (lv : BinaryLevel) (rest : List Value) :
    convGo lv (.Bit true :: rest) = (convGo lv.neg rest).map (lv.transition :: ·) := by
  cases lv <;> rfl

theorem convGo_bit_false (lv : BinaryLevel) (rest : List Value) :
    convGo lv (.Bit false :: rest) = (convGo lv rest).map (.Hold 1 :: ·) := by
  cases lv <;> rfl

theorem convGo_eof0_low (rest : List Value) :
    convGo .Low (.EndOfFrame 0 :: rest) = (convGo .High rest).map (.Rising :: ·) := rfl

theorem convGo_eof1_high (rest : List Value) :
    convGo .High (.EndOfFrame 1 :: rest) = (convGo .Low rest).map (.Falling :: ·) := rfl

theorem convGo_eofS_low (e : Nat) (rest : List Value) :
    convGo .Low (.EndOfFrame (e + 1) :: rest) = (convGo .Low rest).map (.Hold 1 :: ·) := rfl

theorem convGo_complete_low (rest : List Value) :
    convGo .Low (.Complete :: rest) = .ok [.Noise 1] := rfl

theorem convPayload_fst_stuff_true (sba z : Nat) (rest : List Bool) (lv : BinaryLevel)
    (h : sba ≤ z) :
    (convPayload sba (true :: rest) z lv).1
      = lv.transition :: lv.neg.transition :: (convPayload sba rest 0 lv).1 := by
  simp [convPayload, h]

theorem convPayload_snd_stuff_true (sba z : Nat) (rest : List Bool) (lv : BinaryLevel)
    (h : sba ≤ z) :
    (convPayload sba (true :: rest) z lv).2 = (convPayload sba rest 0 lv).2 := by
  simp [convPayload, h]

theorem convPayload_fst_stuff_false (sba z : Nat) (rest : List Bool) (lv : BinaryLevel)
    (h : sba ≤ z) :
    (convPayload sba (false :: rest) z lv).1
      = lv.transition :: .Hold 1 :: (convPayload sba rest 1 lv.neg).1 := by
  simp [convPayload, h]

theorem convPayload_snd_stuff_false (sba z : Nat) (rest : List Bool) (lv : BinaryLevel)
    (h : sba ≤ z) :
    (convPayload sba (false :: rest) z lv).2 = (convPayload sba rest 1 lv.neg).2 := by
  simp [convPayload, h]

theorem convPayload_fst_true (sba z : Nat) (rest : List Bool) (lv : BinaryLevel)
    (h : ¬ sba ≤ z) :
    (convPayload sba (true :: rest) z lv).1
      = lv.transition :: (convPayload sba rest 0 lv.neg).1 := by
  simp [convPayload, h]

theorem convPayload_snd_true (sba z : Nat) (rest : List Bool) (lv : BinaryLevel)
    (h : ¬ sba ≤ z) :
    (convPayload sba (true :: rest) z lv).2 = (convPayload sba rest 0 lv.neg).2 := by
  simp [convPayload, h]

theorem convPayload_fst_false (sba z : Nat) (rest : List Bool) (lv : BinaryLevel)
    (h : ¬ sba ≤ z) :
    (convPayload sba (false :: rest) z lv).1
      = .Hold 1 :: (convPayload sba rest (z + 1) lv).1 := by
  simp [convPayload, h]

theorem convPayload_snd_false (sba z : Nat) (rest : List Bool) (lv : BinaryLevel)
    (h : ¬ sba ≤ z) :
    (convPayload sba (false :: rest) z lv).2 = (convPayload sba rest (z + 1) lv).2 := by
  simp [convPayload, h]

theorem zAfter_stuff (sba z : Nat) (b : Bool) (rest : List Bool) (h : sba ≤ z) :
    zAfter sba (b :: rest) z = zAfter sba rest (if b then 0 else 1) := by
  simp [zAfter, h]

theorem zAfter_no_stuff (sba z : Nat) (b : Bool) (rest : List Bool) (h : ¬ sba ≤ z) :
    zAfter sba (b :: rest) z = zAfter sba rest (if b then 0 else z + 1) := by
  simp [zAfter, h]

/-- The converter maps the bit-stuffed payload section to the transitions of
`convPayload` and continues from its final level. -/
theorem convGo_stuffedAux (sba : Nat) (bits : List Bool) :
    ∀ (z : Nat) (lv : BinaryLevel) (suffix : List Value),
      convGo lv (stuffedAux sba bits z ++ suffix)
        = (convGo (convPayload sba bits z lv).2 suffix).map
            (fun t => (convPayload sba bits z lv).1 ++ t) := by
  induction bits with
  | nil =>
    intro z lv suffix
    show convGo lv suffix = Except.map (fun t => [] ++ t) (convGo lv suffix)
    cases convGo lv suffix <;> rfl
  | cons b rest ih =>
    intro z lv suffix
    by_cases hz : sba ≤ z
    · have hstream : stuffedAux sba (b :: rest) z
          = .StuffBit :: .Bit b :: stuffedAux sba rest (if b then 0 else 1) := by
        simp [stuffedAux, hz]
      rw [hstream]
      cases b with
      | true =>
        show convGo lv (.StuffBit :: .Bit true :: (stuffedAux sba rest 0 ++ suffix)) = _
        rw [convGo_stuff, convGo_bit_true, neg_neg_level, ih 0 lv suffix,
          except_map_map, except_map_map,
          convPayload_fst_stuff_true sba z rest lv hz,
          convPayload_snd_stuff_true sba z rest lv hz]
        rfl
      | false =>
        show convGo lv (.StuffBit :: .Bit false :: (stuffedAux sba rest 1 ++ suffix)) = _
        rw [convGo_stuff, convGo_bit_false, ih 1 lv.neg suffix,
          except_map_map, except_map_map,
          convPayload_fst_stuff_false sba z rest lv hz,
          convPayload_snd_stuff_false sba z rest lv hz]
        rfl
    · have hstream : stuffedAux sba (b :: rest) z
          = .Bit b :: stuffedAux sba rest (if b then 0 else z + 1) := by
        simp [stuffedAux, hz]
      rw [hstream]
      cases b with
      | true =>
        show convGo lv (.Bit true :: (stuffedAux sba rest 0 ++ suffix)) = _
        rw [convGo_bit_true, ih 0 lv.neg suffix, except_map_map,
          convPayload_fst_true sba z rest lv hz, convPayload_snd_true sba z rest lv hz]
        rfl
      | false =>
        show convGo lv (.Bit false :: (stuffedAux sba rest (z + 1) ++ suffix)) = _
        rw [convGo_bit_false, ih (z + 1) lv suffix, except_map_map,
          convPayload_fst_false sba z rest lv hz, convPayload_snd_false sba z rest lv hz]
        rfl

/-- The run of late `EndOfFrame` symbols at `Low` level becomes a run of unit
holds. -/
theorem convGo_eof_run (n : Nat) :
    ∀ (k : Nat), 1 ≤ k → ∀ t : List Value,
      convGo .Low ((List.range' k n).map .EndOfFrame ++ t)
        = (convGo .Low t).map (fun l => List.replicate n (Transition.Hold 1) ++ l) := by
  induction n with
  | zero =>
    intro k hk t
    show convGo .Low t = Except.map (fun l => [] ++ l) (convGo .Low t)
    cases convGo .Low t <;> rfl
  | succ n ih =>
    intro k hk t
    obtain ⟨k', rfl⟩ : ∃ k', k = k' + 1 := ⟨k - 1, by omega⟩
    rw [List.range'_succ]
    show convGo .Low (.EndOfFrame (k' + 1) :: ((List.range' (k' + 2) n).map .EndOfFrame ++ t)) = _
    rw [convGo_eofS_low, ih (k' + 2) (by omega) t, except_map_map]
    rfl

/-- The converter's image of the `EndOfFrame` trailer and the final `Complete`
symbol, entered at `Low` level. -/
theorem convGo_trailer (sba : Nat) :
    convGo .Low (eofList sba ++ [.Complete])
      = .ok (.Rising :: .Falling :: (List.replicate sba (Transition.Hold 1) ++ [.Noise 1])) := by
  have hrange : List.range (sba + 2) = 0 :: 1 :: List.range' 2 sba := by
    rw [List.range_eq_range', List.range'_succ, List.range'_succ]
  show convGo .Low ((List.range (sba + 2)).map .EndOfFrame ++ [.Complete]) = _
  rw [hrange]
  show convGo .Low (.EndOfFrame 0 :: .EndOfFrame 1
      :: ((List.range' 2 sba).map .EndOfFrame ++ [.Complete])) = _
  rw [convGo_eof0_low, convGo_eof1_high, convGo_eof_run sba 2 (by omega) [.Complete],
    convGo_complete_low]
  rfl

theorem sofList_small (pre : Nat) (h : pre ≤ 1) : sofList pre = [.StartOfFrame 0] := by
  interval_cases pre <;> rfl

/-! ## Parsing the converted payload -/

theorem zAfter_le (sba : Nat) (hs : 1 ≤ sba) (bits : List Bool) :
    ∀ z : Nat, z ≤ sba → zAfter sba bits z ≤ sba := by
  induction bits with
  | nil => intro z hz; exact hz
  | cons b rest ih =>
    intro z hz
    by_cases hstuff : sba ≤ z
    · rw [zAfter_stuff sba z b rest hstuff]
      cases b
      · exact ih 1 hs
      · exact ih 0 (by omega)
    · rw [zAfter_no_stuff sba z b rest hstuff]
      cases b
      · exact ih (z + 1) (by omega)
      · exact ih 0 (by omega)

/-- Parsing the converter's image of a bit-stuffed payload section: starting
in state `Bit z` with `z` equal to the encoder's contiguous-zeros counter, the
loop pushes exactly the payload bits and ends in `Bit (zAfter sba bits z)` at
the start of the remaining transitions. -/
theorem parseLoop_convPayload (sba pre2 : Nat) (hs : 1 ≤ sba) (bits : List Bool) :
    ∀ (z : Nat) (lv : BinaryLevel) (tail : List Transition) (idx sof : Nat) (bv : BitVec),
      z ≤ sba →
      ∃ idx2, parseLoop sba pre2 ((convPayload sba bits z lv).1 ++ tail) idx (.Bit z) sof bv
        = parseLoop sba pre2 tail idx2 (.Bit (zAfter sba bits z)) sof (bv.pushList bits) := by
  induction bits with
  | nil =>
    intro z lv tail idx sof bv hz
    exact ⟨idx, rfl⟩
  | cons b rest ih =>
    intro z lv tail idx sof bv hz
    by_cases hstuff : sba ≤ z
    · have hzeq : z = sba := by omega
      rw [zAfter_stuff sba z b rest hstuff, pushList_cons]
      cases b with
      | true =>
        rw [convPayload_fst_stuff_true sba z rest lv hstuff]
        obtain ⟨idx2, hrec⟩ := ih 0 lv tail (idx + 2) sof (bv.push true) (by omega)
        refine ⟨idx2, ?_⟩
        cases lv with
        | Low =>
          show parseLoop sba pre2 (.Rising :: .Falling
              :: ((convPayload sba rest 0 .Low).1 ++ tail)) idx (.Bit z) sof bv = _
          rw [parseLoop_bit_rising, if_neg (by omega), parseLoop_bit_falling,
            if_pos (by omega)]
          exact hrec
        | High =>
          show parseLoop sba pre2 (.Falling :: .Rising
              :: ((convPayload sba rest 0 .High).1 ++ tail)) idx (.Bit z) sof bv = _
          rw [parseLoop_bit_falling, if_neg (by omega), parseLoop_bit_rising,
            if_pos (by omega)]
          exact hrec
      | false =>
        rw [convPayload_fst_stuff_false sba z rest lv hstuff]
        obtain ⟨idx2, hrec⟩ := ih 1 lv.neg tail (idx + 2) sof (bv.push false) hs
        refine ⟨idx2, ?_⟩
        cases lv with
        | Low =>
          show parseLoop sba pre2 (.Rising :: .Hold 1
              :: ((convPayload sba rest 1 .High).1 ++ tail)) idx (.Bit z) sof bv = _
          rw [parseLoop_bit_rising, if_neg (by omega), parseLoop_bit_hold,
            if_pos (by omega)]
          exact hrec
        | High =>
          show parseLoop sba pre2 (.Falling :: .Hold 1
              :: ((convPayload sba rest 1 .Low).1 ++ tail)) idx (.Bit z) sof bv = _
          rw [parseLoop_bit_falling, if_neg (by omega), parseLoop_bit_hold,
            if_pos (by omega)]
          exact hrec
    · rw [zAfter_no_stuff sba z b rest hstuff, pushList_cons]
      cases b with
      | true =>
        rw [convPayload_fst_true sba z rest lv hstuff]
        obtain ⟨idx2, hrec⟩ := ih 0 lv.neg tail (idx + 1) sof (bv.push true) (by omega)
        refine ⟨idx2, ?_⟩
        cases lv with
        | Low =>
          show parseLoop sba pre2 (.Rising
              :: ((convPayload sba rest 0 .High).1 ++ tail)) idx (.Bit z) sof bv = _
          rw [parseLoop_bit_rising, if_pos (by omega)]
          exact hrec
        | High =>
          show parseLoop sba pre2 (.Falling
              :: ((convPayload sba rest 0 .Low).1 ++ tail)) idx (.Bit z) sof bv = _
          rw [parseLoop_bit_falling, if_pos (by omega)]
          exact hrec
      | false =>
        rw [convPayload_fst_false sba z rest lv hstuff]
        obtain ⟨idx2, hrec⟩ := ih (z + 1) lv tail (idx + 1) sof (bv.push false) (by omega)
        refine ⟨idx2, ?_⟩
        show parseLoop sba pre2 (.Hold 1
            :: ((convPayload sba rest (z + 1) lv).1 ++ tail)) idx (.Bit z) sof bv = _
        rw [parseLoop_bit_hold, if_pos (by omega)]
        exact hrec

/-- Parsing a run of unit holds adds to the hold counter and pushes zero
bits. -/
theorem parseLoop_hold_run (sba pre2 n : Nat) :
    ∀ (j : Nat) (t : List Transition) (idx sof : Nat) (bv : BitVec), j + n ≤ sba →
      parseLoop sba pre2 (List.replicate n (.Hold 1) ++ t) idx (.Bit j) sof bv
        = parseLoop sba pre2 t (idx + n) (.Bit (j + n)) sof (pushFalses bv n) := by
  induction n with
  | zero => intro j t idx sof bv h; rfl
  | succ n ih =>
    intro j t idx sof bv h
    show parseLoop sba pre2 (.Hold 1 :: (List.replicate n (.Hold 1) ++ t))
        idx (.Bit j) sof bv = _
    rw [parseLoop_bit_hold, if_pos (by omega), ih (j + 1) t (idx + 1) sof (pushFalses bv 1)
      (by omega)]
    have h1 : j + 1 + n = j + (n + 1) := by omega
    have h2 : idx + 1 + n = idx + (n + 1) := by omega
    rw [h1, h2]
    rfl

/-! ## Recovering the payload bytes from the bit accumulator -/

/-- The first `P.length` bytes of the accumulator after pushing the payload
bits and any trailing extras are exactly the payload. -/
theorem bytes_take (P : List Nat) (extra : List Bool) (hP : ∀ b ∈ P, b < 256) :
    (BitVec.new.pushList (payloadBits P ++ extra)).s.take P.length = P := by
  obtain ⟨hbl, hslen, hmem, hread⟩ := pushList_invariant (payloadBits P ++ extra)
  set s := (BitVec.new.pushList (payloadBits P ++ extra)).s with hs
  have hplen := payloadBits_length P
  have hlen : (payloadBits P ++ extra).length = 8 * P.length + extra.length := by
    simp [hplen]
  have hsl : P.length ≤ s.length := by rw [hslen, hlen]; omega
  apply List.ext_getElem?
  intro i
  by_cases hi : i < P.length
  · rw [List.getElem?_take_of_lt hi]
    have hiS : i < s.length := by omega
    rw [List.getElem?_eq_getElem hiS, List.getElem?_eq_getElem hi]
    congr 1
    apply Nat.eq_of_testBit_eq
    intro k
    by_cases hk : k < 8
    · have hr := hread (8 * i + (7 - k)) (by rw [hlen]; omega)
      have hdiv : (8 * i + (7 - k)) / 8 = i := by omega
      have hmod : (8 * i + (7 - k)) % 8 = 7 - k := by omega
      rw [hdiv, hmod, read_bit_eq_testBit] at hr
      have h77 : 7 - (7 - k) = k := by omega
      rw [h77] at hr
      have hgd : s.getD i 0 = s[i] := by
        rw [List.getD_eq_getElem?_getD, List.getElem?_eq_getElem hiS]
        rfl
      rw [hgd] at hr
      rw [hr]
      have happ : (payloadBits P ++ extra).getD (8 * i + (7 - k)) false
          = (payloadBits P).getD (8 * i + (7 - k)) false :=
        List.getD_append _ _ _ _ (by rw [hplen]; omega)
      rw [happ]
      have hpb := payloadBits_getElem? P i (7 - k) hi (by omega)
      rw [List.getD_eq_getElem?_getD, hpb, List.getElem?_eq_getElem hi]
      simp [h77]
    · have h256 : (256 : Nat) ≤ 2 ^ k := by
        calc (256 : Nat) = 2 ^ 8 := rfl
        _ ≤ 2 ^ k := Nat.pow_le_pow_right (by omega) (by omega)
      have h1 : s[i] < 2 ^ k := by
        have := hmem _ (List.getElem_mem hiS)
        omega
      have h2 : P[i] < 2 ^ k := by
        have := hP _ (List.getElem_mem hi)
        omega
      rw [Nat.testBit_eq_false_of_lt h1, Nat.testBit_eq_false_of_lt h2]
  · rw [List.getElem?_take_eq_none (by omega), List.getElem?_eq_none (by omega)]

/-- Truncating the last incomplete byte after 1-7 spurious trailing bits
recovers exactly the payload bytes. -/
theorem parse_final_bytes (P : List Nat) (extra : List Bool) (hP : ∀ b ∈ P, b < 256)
    (h1 : 1 ≤ extra.length) (h7 : extra.length ≤ 7) :
    (BitVec.new.pushList (payloadBits P ++ extra)).truncate_last_incomplete_byte.byte_vec
      = P := by
  obtain ⟨hbl, hslen, hmem, hread⟩ := pushList_invariant (payloadBits P ++ extra)
  have hplen := payloadBits_length P
  have hlen : (payloadBits P ++ extra).length = 8 * P.length + extra.length := by
    simp [hplen]
  have hc : (BitVec.new.pushList (payloadBits P ++ extra)).bl % 8 > 0 := by
    rw [hbl, hlen]
    omega
  unfold BitVec.truncate_last_incomplete_byte
  rw [if_pos hc]
  show (BitVec.new.pushList (payloadBits P ++ extra)).s.take
      ((BitVec.new.pushList (payloadBits P ++ extra)).s.length - 1) = P
  have hslen1 : (BitVec.new.pushList (payloadBits P ++ extra)).s.length = P.length + 1 := by
    rw [hslen, hlen]
    omega
  rw [hslen1]
  show (BitVec.new.pushList (payloadBits P ++ extra)).s.take P.length = P
  exact bytes_take P extra hP

/-- Parsing the converter's image of the trailer (entered at `Low` level):
two edges, `stuff_bit_after` unit holds, and the final noise that completes
the frame and truncates the spurious trailing bits. -/
theorem parseLoop_trailer (sba pre2 : Nat) (hs : 1 ≤ sba) (hc idx sof : Nat) (bv : BitVec)
    (hhc : hc ≤ sba) :
    ∃ k, parseLoop sba pre2
        (.Rising :: .Falling :: (List.replicate sba (Transition.Hold 1) ++ [.Noise 1]))
        idx (.Bit hc) sof bv
      = .ok (.Done k,
          (((if hc < sba then bv.push true else bv).push true).pushList
            (List.replicate sba false)).truncate_last_incomplete_byte) := by
  rw [parseLoop_bit_rising, parseLoop_bit_falling, if_pos (show (0 : Nat) < sba by omega),
    parseLoop_hold_run sba pre2 sba 0 [.Noise 1] (idx + 2) sof _ (by omega),
    pushFalses_eq_pushList, parseLoop_bit_noise, if_pos (show sba ≤ 0 + sba by omega)]
  exact ⟨idx + 2 + sba + 1, rfl⟩

/-- C1: the amended round-trip property.  The spec's claim fails as stated
(see `nrzi_roundtrip_counterexample`); it holds for a nonempty byte payload
when `1 ≤ stuff_bit_after ≤ 5`, `preamble ≤ 1`, the converter's level after
the payload section is `Low` (equivalently, the raw frame ends in a zero bit
once stuffing is accounted for), and the converter input is taken inclusively
of the encoder's final `Complete` state value: then
encode → transitions → parse returns exactly the payload bytes. -/
theorem nrzi_roundtrip (P : List Nat) (sba pre : Nat)
    (hP : P ≠ []) (hbytes : ∀ b ∈ P, b < 256)
    (hs1 : 1 ≤ sba) (hs5 : sba ≤ 5) (hpre : pre ≤ 1)
    (hlow : (convPayload sba (payloadBits P) 0 .High).2 = .Low) :
    roundTrip P sba pre = .ok P := by
  obtain ⟨sf, hrun, _⟩ := nrzi_characterization P sba pre hP hs1
  have hvals : nrziIter P sba pre
      = some (sofList pre ++ (stuffedAux sba (payloadBits P) 0 ++ eofList sba)) := by
    unfold nrziIter
    rw [hrun]
    rfl
  have hconv : nrzi_to_transition_states
      ((sofList pre ++ (stuffedAux sba (payloadBits P) 0 ++ eofList sba)) ++ [.Complete])
      = .ok (mergeTransitions (.Rising :: ((convPayload sba (payloadBits P) 0 .High).1
          ++ (.Rising :: .Falling
              :: (List.replicate sba (Transition.Hold 1) ++ [.Noise 1]))))) := by
    unfold nrzi_to_transition_states
    rw [sofList_small pre hpre]
    have h1 : (([Value.StartOfFrame 0]
          ++ (stuffedAux sba (payloadBits P) 0 ++ eofList sba)) ++ [Value.Complete])
        = Value.StartOfFrame 0
            :: (stuffedAux sba (payloadBits P) 0 ++ (eofList sba ++ [Value.Complete])) := by
      simp
    rw [h1, convGo_sof_low,
      convGo_stuffedAux sba (payloadBits P) 0 .High (eofList sba ++ [Value.Complete]),
      hlow, convGo_trailer]
    rfl
  have hstep1 : parseLoop sba pre (.Rising :: ((convPayload sba (payloadBits P) 0 .High).1
        ++ (.Rising :: .Falling :: (List.replicate sba (Transition.Hold 1) ++ [.Noise 1]))))
        0 (.Begin 0) 0 BitVec.new
      = parseLoop sba pre ((convPayload sba (payloadBits P) 0 .High).1
          ++ (.Rising :: .Falling :: (List.replicate sba (Transition.Hold 1) ++ [.Noise 1])))
          1 (.Bit 0) 1 BitVec.new := by
    rw [parseLoop_begin_rising, if_pos (show 0 % 2 = 0 from rfl),
      if_neg (show ¬ 0 + 1 < pre by omega)]
  obtain ⟨idx2, hmid⟩ := parseLoop_convPayload sba pre hs1 (payloadBits P) 0 .High
    (.Rising :: .Falling :: (List.replicate sba (Transition.Hold 1) ++ [.Noise 1]))
    1 1 BitVec.new (by omega)
  obtain ⟨k, hend⟩ := parseLoop_trailer sba pre hs1 (zAfter sba (payloadBits P) 0) idx2 1
    (BitVec.new.pushList (payloadBits P)) (zAfter_le sba hs1 (payloadBits P) 0 (by omega))
  have hbv : (((if zAfter sba (payloadBits P) 0 < sba
        then (BitVec.new.pushList (payloadBits P)).push true
        else BitVec.new.pushList (payloadBits P)).push true).pushList
          (List.replicate sba false)).truncate_last_incomplete_byte.byte_vec = P := by
    by_cases hz : zAfter sba (payloadBits P) 0 < sba
    · rw [if_pos hz]
      have hcollapse : (((BitVec.new.pushList (payloadBits P)).push true).push true).pushList
            (List.replicate sba false)
          = BitVec.new.pushList (payloadBits P ++ (true :: true :: List.replicate sba false)) := by
        rw [pushList_append]
        rfl
      rw [hcollapse]
      exact parse_final_bytes P (true :: true :: List.replicate sba false) hbytes
        (by simp) (by simp; omega)
    · rw [if_neg hz]
      have hcollapse : ((BitVec.new.pushList (payloadBits P)).push true).pushList
            (List.replicate sba false)
          = BitVec.new.pushList (payloadBits P ++ (true :: List.replicate sba false)) := by
        rw [pushList_append]
        rfl
      rw [hcollapse]
      exact parse_final_bytes P (true :: List.replicate sba false) hbytes
        (by simp) (by simp; omega)
  have hparse : parse (mergeTransitions (.Rising :: ((convPayload sba (payloadBits P) 0 .High).1
        ++ (.Rising :: .Falling
            :: (List.replicate sba (Transition.Hold 1) ++ [.Noise 1]))))) sba pre
      = some (.ok P) := by
    rw [parse_merge]
    unfold parse
    rw [hstep1, hmid, hend]
    exact congrArg (fun bytes => some (Except.ok bytes)) hbv
  unfold roundTrip
  rw [hvals]
  show (match nrzi_to_transition_states
      ((sofList pre ++ (stuffedAux sba (payloadBits P) 0 ++ eofList sba)) ++ [.Complete]) with
    | .error _ => PipeResult.convErr
    | .ok transitions =>
      match parse transitions sba pre with
      | none => PipeResult.panic
      | some (.error e) => PipeResult.parseErr e
      | some (.ok bytes) => PipeResult.ok bytes) = PipeResult.ok P
  rw [hconv]
  show (match parse (mergeTransitions (.Rising :: ((convPayload sba (payloadBits P) 0 .High).1
      ++ (.Rising :: .Falling
          :: (List.replicate sba (Transition.Hold 1) ++ [.Noise 1]))))) sba pre with
    | none => PipeResult.panic
    | some (.error e) => PipeResult.parseErr e
    | some (.ok bytes) => PipeResult.ok bytes) = PipeResult.ok P
  rw [hparse]

/-- C1 counterexample: within the claim's stated parameter ranges the round
trip fails in every mode — a bit-stuffing parse error for a payload whose
frame ends at `High` level (`[0x80]`, `stuff_bit_after = 4`), wrong recovered
bytes for `stuff_bit_after = 6` (`[3]` comes back as `[3, 192]`: the 8
spurious trailer bits form a complete extra byte that truncation keeps), the
converter's `Err` for `preamble = 2` (the second `StartOfFrame` arrives at
`High` level), and the encoder's out-of-bounds panic on the empty payload;
moreover, had the converter input not been extended with the final `Complete`
state value, parsing the well-formed frame of `[0x98]` would end in the
`"Internal error"` panic. -/
theorem nrzi_roundtrip_counterexample :
    roundTrip [128] 4 0 = .parseErr .IncorrectBitStuffingInTransitions
    ∧ (roundTrip [3] 6 0 = .ok [3, 192] ∧ [3, 192] ≠ [3])
    ∧ roundTrip [1] 1 2 = .convErr
    ∧ roundTrip [] 1 0 = .panic
    ∧ (∃ l ts, nrziIter [152] 4 0 = some l ∧ nrzi_to_transition_states l = .ok ts
        ∧ parse ts 4 0 = none) := by
  exact ⟨by decide, ⟨by decide, by decide⟩, by decide, by decide, ⟨_, _, rfl, rfl, rfl⟩⟩

/-- C1 witness: the amended round trip at payload `[0b1001_1000]`,
`stuff_bit_after = 4`, preamble `0`. -/
theorem nrzi_roundtrip_witness : roundTrip [152] 4 0 = .ok [152] :=
  nrzi_roundtrip [152] 4 0 (by decide) (by decide) (by decide) (by decide) (by decide)
    (by decide)

end Wavedata
